import Mathlib

/-!
A shallow embedding of `tvj::forward_list` (src/TVJ_Forward_List.h) at
`Elem = int`, modelled as a pointer machine: an arena of nodes addressed by
index, a head and a tail sentinel, and a stored size field.  The checked
(`#ifndef NDEBUG`) build is modelled: iterator bounds checks raise errors, and
`merge` / `unique` pre-sort unsorted operands.  `delete` is modelled as a
no-op on the arena: a freed node is never reachable again in the executions
reasoned about, so this does not change any observable behaviour.  Loops are
given explicit fuel; the fuel bounds chosen always exceed the number of
iterations of the corresponding source loops on the states considered.
-/

namespace TvjFL

/-- One list node: the stored element and the pointer to the successor
(`none` models `nullptr`).  Mirrors `forward_list<Elem>::Node`. -/
structure Node where
  data : Int
  succ : Option Nat
deriving DecidableEq

instance : Inhabited Node := ⟨⟨0, none⟩⟩

/-- The arena of allocated nodes; an address is an index into this list.
A fresh allocation appends at the end. -/
abbrev Heap := List Node

/-- Read the node at an address (reads of unallocated addresses never happen
in the executions considered). -/
def nd (h : Heap) (a : Nat) : Node := h.getD a ⟨0, none⟩

/-- Write the successor field of the node at address `a`. -/
def setSucc (h : Heap) (a : Nat) (p : Option Nat) : Heap :=
  h.set a ⟨(nd h a).data, p⟩

/-- Write the data field of the node at address `a`. -/
def setData (h : Heap) (a : Nat) (x : Int) : Heap :=
  h.set a ⟨x, (nd h a).succ⟩

/-- Errors of the checked build (`error_info` throw kinds that can actually be
raised by the modelled operations), plus `ub` for executions where the C++
would dereference an invalid pointer even in checked builds, and `fuel` for
exhausted loop bounds (never hit on the executions reasoned about). -/
inductive Err where
  | underflow | overflow | nullref | ub | fuel
deriving DecidableEq

instance instDecEqExcept {E A : Type} [DecidableEq E] [DecidableEq A] :
    DecidableEq (Except E A) := fun x y =>
  match x, y with
  | .ok a, .ok b =>
    if h : a = b then isTrue (by rw [h]) else isFalse fun hc => h (Except.ok.inj hc)
  | .error a, .error b =>
    if h : a = b then isTrue (by rw [h]) else isFalse fun hc => h (Except.error.inj hc)
  | .ok _, .error _ => isFalse fun hc => Except.noConfusion hc
  | .error _, .ok _ => isFalse fun hc => Except.noConfusion hc

/-- The list object: `head` and `tail` are the two sentinel node addresses,
`size_` the stored element count.  Mirrors the data members of
`tvj::forward_list`. -/
structure FList where
  heap : Heap
  head : Nat
  tail : Nat
  size_ : Nat
deriving DecidableEq

def cbeforeBegin (l : FList) : Option Nat := some l.head
def cbegin (l : FList) : Option Nat := (nd l.heap l.head).succ
def cend (l : FList) : Option Nat := some l.tail

/-- `const_iterator::operator*` (checked build): null / head / tail checks,
then the node's data. -/
def iterDeref (l : FList) (p : Option Nat) : Except Err Int :=
  match p with
  | none => .error .nullref
  | some a =>
    if a = l.head then .error .underflow
    else if a = l.tail then .error .overflow
    else .ok (nd l.heap a).data

/-- `const_iterator::operator++` (checked build): null / tail checks, then
move to the successor. -/
def iterInc (l : FList) (p : Option Nat) : Except Err (Option Nat) :=
  match p with
  | none => .error .nullref
  | some a =>
    if a = l.tail then .error .overflow
    else .ok (nd l.heap a).succ

/-- The raw pointer walk of `operator+`: `n` successive `_node = _node->succ`
reads; stepping from a null pointer is undefined behaviour. -/
def walkSucc (h : Heap) : Option Nat → Nat → Except Err (Option Nat)
  | p, 0 => .ok p
  | none, _ + 1 => .error .ub
  | some a, n + 1 => walkSucc h (nd h a).succ n

/-- `const_iterator::operator+` (checked build).  The checks inside the source
loop re-test the original `node` member, which the loop never changes, so
after the entry checks the walk itself performs no further effective test. -/
def iterPlus (l : FList) (p : Option Nat) (n : Nat) : Except Err (Option Nat) :=
  match p with
  | none => .error .nullref
  | some a =>
    if a = l.tail then .error .overflow
    else walkSucc l.heap (some a) n

/-- A fresh default list: `head = new Node; tail = head->succ = new Node;`
(uninitialised data modelled as 0, never observed). -/
def emptyFL : FList :=
  { heap := [⟨0, some 1⟩, ⟨0, none⟩], head := 0, tail := 1, size_ := 0 }

/-- `push_back`: write the element into the tail sentinel, allocate a fresh
sentinel, advance `tail`. -/
def pushBack (l : FList) (e : Int) : FList :=
  let fresh := l.heap.length
  let h1 := l.heap ++ [⟨0, none⟩]
  let h2 := setData h1 l.tail e
  let h3 := setSucc h2 l.tail (some fresh)
  let h4 := setSucc h3 fresh none
  { heap := h4, head := l.head, tail := fresh, size_ := l.size_ + 1 }

def pushBackN (l : FList) (e : Int) : Nat → FList
  | 0 => l
  | n + 1 => pushBackN (pushBack l e) e n

/-- Build a list by `push_back`-ing every element in order — the element-wise
copy performed by every constructor of the source. -/
def mkList (xs : List Int) : FList := xs.foldl pushBack emptyFL

/-- `pop_front`: `head = head->succ; size_--`; no-op on an empty list. -/
def popFront (l : FList) : Except Err FList :=
  if l.size_ = 0 then .ok l
  else match (nd l.heap l.head).succ with
    | some a => .ok { l with head := a, size_ := l.size_ - 1 }
    | none => .error .ub

def popBackGo (l : FList) (i : Option Nat) : Nat → Except Err FList
  | 0 => .error .fuel
  | fuel + 1 => do
    let i2 ← iterPlus l i 2
    if i2 ≠ cend l then do
      popBackGo l (← iterInc l i) fuel
    else
      match i with
      | some a =>
        .ok { l with heap := setSucc l.heap a (some l.tail), size_ := l.size_ - 1 }
      | none => .error .ub

/-- `pop_back`: scan to the next-to-last node (`while (i + 2 != cend())`),
relink it to `tail`. -/
def popBack (l : FList) : Except Err FList :=
  if l.size_ = 0 then .ok l
  else popBackGo l (cbeforeBegin l) (l.heap.length + 1)

/-- `assign` (checked build): bounds checks, then overwrite the data. -/
def assignFL (l : FList) (iter : Option Nat) (e : Int) : Except Err FList :=
  match iter with
  | none => .error .nullref
  | some a =>
    if a = l.head then .error .underflow
    else if a = l.tail then .error .overflow
    else .ok { l with heap := setData l.heap a e }

/-- The inner loop of `insert_after`: insert `n` copies of `e` directly after
address `i`, threading the chain through the fresh nodes. -/
def insertLoop (heap : Heap) (i : Nat) (e : Int) : Nat → Heap
  | 0 => heap
  | n + 1 =>
    let fresh := heap.length
    let h1 := heap ++ [⟨e, (nd heap i).succ⟩]
    let h2 := setSucc h1 i (some fresh)
    insertLoop h2 fresh e n

def insertScan (l : FList) (iter : Option Nat) (e : Int) (n : Nat) (i : Option Nat) :
    Nat → Except Err FList
  | 0 => .error .fuel
  | fuel + 1 => do
    let i1 ← iterPlus l i 1
    if i1 ≠ cend l then
      if i = iter then
        match i with
        | some a => .ok { l with heap := insertLoop l.heap a e n, size_ := l.size_ + n }
        | none => .error .ub
      else do
        insertScan l iter e n (← iterInc l i) fuel
    else
      .ok (pushBackN l e n)

/-- `insert_after(iter, elem, n)`: scan from `before_begin` for the node
identical to `iter`; insert after it, or append at the back when `iter` is not
found before the last node (the documented fallback). -/
def insertAfterFL (l : FList) (iter : Option Nat) (e : Int) (n : Nat) : Except Err FList :=
  if n = 0 then .ok l
  else insertScan l iter e n (cbeforeBegin l) (l.heap.length + 1)

/-- `push_front`: defined as `insert_after(const_iterator(head, this), elem)`. -/
def pushFront (l : FList) (e : Int) : Except Err FList :=
  insertAfterFL l (some l.head) e 1

def removeAtGo (l : FList) (iter : Option Nat) (i : Option Nat) :
    Nat → Except Err (Int × Bool × FList)
  | 0 => .error .fuel
  | fuel + 1 => do
    let i1 ← iterPlus l i 1
    if i1 ≠ cend l then
      if i1 ≠ iter then do
        removeAtGo l iter (← iterInc l i) fuel
      else do
        let ret ← iterDeref l i1
        match i, i1 with
        | some a, some b =>
          .ok (ret, true,
            { l with heap := setSucc l.heap a (nd l.heap b).succ, size_ := l.size_ - 1 })
        | _, _ => .error .ub
    else
      .ok ((nd l.heap l.tail).data, false, l)

/-- `remove_at(iter, &ok)`: (returned value, ok flag, new state); on failure
the tail sentinel's data is returned, the flag is false, nothing is mutated. -/
def removeAt (l : FList) (iter : Option Nat) : Except Err (Int × Bool × FList) :=
  removeAtGo l iter (cbeforeBegin l) (l.heap.length + 1)

/-- The inner walk of `erase_after(iter1)`: `while (j.node && j != iter2)`
where `iter2` was set to `cend()`. -/
def eraseWalk1 (l : FList) (iter2 : Option Nat) (j : Option Nat) (cnt : Nat) :
    Nat → Except Err (Option Nat × Nat)
  | 0 => .error .fuel
  | fuel + 1 =>
    match j with
    | none => .ok (none, cnt)
    | some b =>
      if some b = iter2 then .ok (some b, cnt)
      else do
        let j2 ← iterInc l (some b)
        eraseWalk1 l iter2 j2 (cnt + 1) fuel

def eraseScan1 (l : FList) (iter1 : Option Nat) (i : Option Nat) : Nat → Except Err FList
  | 0 => .error .fuel
  | fuel + 1 => do
    let i1 ← iterPlus l i 1
    if i1 ≠ cend l then
      if i1 ≠ iter1 then do
        eraseScan1 l iter1 (← iterInc l i) fuel
      else do
        let (jf, cnt) ← eraseWalk1 l (cend l) i1 0 (l.heap.length + 1)
        match i with
        | some a =>
          .ok { l with heap := setSucc l.heap a jf, size_ := l.size_ - cnt }
        | none => .error .ub
    else .ok l

/-- `erase_after(iter1)`: finds the node whose successor is `iter1`, then
removes from `iter1` itself (inclusive) through the end — as the source doc
comment says, "erase all elements from the iterator (including itself)".
No-op when the list is empty or `iter1` is not an element node. -/
def eraseAfter1 (l : FList) (iter1 : Option Nat) : Except Err FList :=
  if l.size_ = 0 then .ok l
  else eraseScan1 l iter1 (cbeforeBegin l) (l.heap.length + 1)

/-- The inner walk of the two-iterator `erase_after`:
`while (j != iter2 && j != cend())`. -/
def eraseWalk2 (l : FList) (iter2 : Option Nat) (j : Option Nat) (cnt : Nat) :
    Nat → Except Err (Option Nat × Nat)
  | 0 => .error .fuel
  | fuel + 1 =>
    if j = iter2 then .ok (j, cnt)
    else if j = cend l then .ok (j, cnt)
    else do
      let j2 ← iterInc l j
      eraseWalk2 l iter2 j2 (cnt + 1) fuel

def eraseScan2 (l : FList) (iter1 iter2 : Option Nat) (i : Option Nat) :
    Nat → Except Err FList
  | 0 => .error .fuel
  | fuel + 1 => do
    let i1 ← iterPlus l i 1
    if i1 ≠ cend l then
      if i1 ≠ iter1 then do
        eraseScan2 l iter1 iter2 (← iterInc l i) fuel
      else do
        let (jf, cnt) ← eraseWalk2 l iter2 i1 0 (l.heap.length + 1)
        match i with
        | some a =>
          .ok { l with heap := setSucc l.heap a jf, size_ := l.size_ - cnt }
        | none => .error .ub
    else .ok l

/-- `erase_after(iter1, iter2)`: removes the range `[iter1, iter2)` — including
the node at `iter1` itself, stopping before `iter2` (or at the end). -/
def eraseAfter2 (l : FList) (iter1 iter2 : Option Nat) : Except Err FList :=
  if l.size_ = 0 then .ok l
  else eraseScan2 l iter1 iter2 (cbeforeBegin l) (l.heap.length + 1)

/-- `clear()`: the source body is `erase_after(cbegin());`. -/
def clearFL (l : FList) : Except Err FList :=
  eraseAfter1 l (cbegin l)

def sortedGo (l : FList) (asc : Bool) (iter : Option Nat) : Nat → Except Err Bool
  | 0 => .error .fuel
  | fuel + 1 => do
    let n1 ← iterPlus l iter 1
    if n1 ≠ cend l then do
      let a ← iterDeref l iter
      let b ← iterDeref l n1
      if a = b then do
        sortedGo l asc (← iterInc l iter) fuel
      else if Bool.xor (decide (a < b)) asc then .ok false
      else do
        sortedGo l asc (← iterInc l iter) fuel
    else .ok true

/-- `sorted(is_ascending)`: true for fewer than two elements, else checks each
adjacent pair, skipping equal ones; `(*iter < *(iter+1)) ^ is_ascending`
means unsorted. -/
def sortedFL (l : FList) (asc : Bool) : Except Err Bool :=
  if l.size_ < 2 then .ok true
  else sortedGo l asc (cbegin l) (l.heap.length + 1)

def searchGo (l : FList) (e : Int) (asc : Bool) (iter : Option Nat) :
    Nat → Except Err (Option Nat)
  | 0 => .error .fuel
  | fuel + 1 => do
    let n1 ← iterPlus l iter 1
    if n1 ≠ cend l then do
      let b ← iterDeref l n1
      if (if asc then decide (b ≥ e) else decide (b ≤ e)) then do
        searchGo l e asc (← iterInc l iter) fuel
      else .ok iter
    else .ok iter

/-- `search(elem, is_ascending)` exactly as written in the source: return
`before_begin` when `*(iter + 1) < elem` (ascending; `>` descending), else
advance while `*(iter + 1) >= elem` (ascending; `<=` descending). -/
def searchFL (l : FList) (e : Int) (asc : Bool) : Except Err (Option Nat) := do
  let iter := cbeforeBegin l
  let n1 ← iterPlus l iter 1
  let b ← iterDeref l n1
  if (if asc then decide (b < e) else decide (b > e)) then .ok (cbeforeBegin l)
  else searchGo l e asc iter (l.heap.length + 1)

/-- `_sort2`: swap the data of the two nodes after `first` when out of order
(`is_ascending ^ (a < b)`), return the second node. -/
def sort2 (h : Heap) (first : Nat) (asc : Bool) : Except Err (Heap × Option Nat) :=
  match (nd h first).succ with
  | none => .error .ub
  | some s1 =>
    match (nd h s1).succ with
    | none => .error .ub
    | some s2 =>
      let a := (nd h s1).data
      let b := (nd h s2).data
      if Bool.xor asc (decide (a < b)) then
        .ok (setData (setData h s1 b) s2 a, some s2)
      else .ok (h, some s2)

/-- Main loop of `_inplace_merge`; the end tests `i != mid_->succ` and
`j != last_->succ` re-read the successor fields live on each iteration, which
matters because the loop body mutates them. -/
def ipmLoop (asc : Bool) (mid_ last_ : Nat) :
    Heap → Option Nat → Option Nat → Nat → Nat →
    Except Err (Heap × Option Nat × Option Nat × Nat)
  | _, _, _, _, 0 => .error .fuel
  | h, some ia, some ja, hp, fuel + 1 =>
    if some ia = (nd h mid_).succ then .ok (h, some ia, some ja, hp)
    else if some ja = (nd h last_).succ then .ok (h, some ia, some ja, hp)
    else
      let di := (nd h ia).data
      let dj := (nd h ja).data
      if Bool.xor (decide (di < dj)) (!asc) then
        let h2 := setSucc h hp (some ia)
        ipmLoop asc mid_ last_ h2 ((nd h2 ia).succ) (some ja) ia fuel
      else
        let h2 := setSucc h hp (some ja)
        ipmLoop asc mid_ last_ h2 (some ia) ((nd h2 ja).succ) ja fuel
  | h, i, j, hp, _ + 1 => .ok (h, i, j, hp)

/-- Drain loop of `_inplace_merge` (`while (p && p != owner->succ)`, with the
end test `owner->succ` again re-read live). -/
def ipmDrain (owner : Nat) : Heap → Option Nat → Nat → Nat → Except Err (Heap × Nat)
  | _, _, _, 0 => .error .fuel
  | h, none, hp, _ + 1 => .ok (h, hp)
  | h, some pa, hp, fuel + 1 =>
    if some pa = (nd h owner).succ then .ok (h, hp)
    else
      let h2 := setSucc h hp (some pa)
      ipmDrain owner h2 ((nd h2 pa).succ) pa fuel

/-- `_inplace_merge`: merges `(first_, mid_]` and `(mid_, last_]` by
relinking.  The source ends with the dead local assignment `h = pre_end;`
(instead of `h->succ = pre_end;`), so no explicit re-termination of the chain
happens; we model exactly that.  The returned marker is
`(last_->data < mid_->data) ^ !is_ascending ? mid_ : last_`. -/
def inplaceMerge (h : Heap) (first_ mid_ last_ : Option Nat) (asc : Bool) (fuel : Nat) :
    Except Err (Heap × Option Nat) :=
  match first_, mid_, last_ with
  | some fa, some ma, some la => do
    let i := (nd h fa).succ
    let j := (nd h ma).succ
    let (h1, i1, j1, hp1) ← ipmLoop asc ma la h i j fa fuel
    let (h2, hp2) ← ipmDrain ma h1 i1 hp1 fuel
    let (h3, _) ← ipmDrain la h2 j1 hp2 fuel
    let r := if Bool.xor (decide ((nd h3 la).data < (nd h3 ma).data)) (!asc) then ma else la
    .ok (h3, some r)
  | _, _, _ => .error .ub

/-- `_sort(first, bound, is_ascending)`: count-based top-down merge sort on
the node chain.  The recursion of the source is on the strictly decreasing
`bound`; here a structural counter bounds the depth so that the definition
computes by kernel reduction. -/
def sortRec (asc : Bool) : Nat → Heap → Option Nat → Nat → Except Err (Heap × Option Nat)
  | 0, _, _, _ => .error .fuel
  | fuel + 1, h, first, bound =>
    match bound with
    | 0 => .ok (h, none)
    | 1 =>
      match first with
      | some fa => .ok (h, (nd h fa).succ)
      | none => .error .ub
    | 2 =>
      match first with
      | some fa => sort2 h fa asc
      | none => .error .ub
    | b + 3 => do
      let half := (b + 3) / 2
      let (h1, mid) ← sortRec asc fuel h first half
      let (h2, last) ← sortRec asc fuel h1 mid (b + 3 - half)
      inplaceMerge h2 first mid last asc (fuel + 1)

/-- `sort(is_ascending)`: `_sort(head, size_, is_ascending)`, return value
discarded. -/
def sortFL (l : FList) (asc : Bool) : Except Err FList := do
  let (h, _) ← sortRec asc (l.heap.length + l.size_ + 10) l.heap (some l.head) l.size_
  .ok { l with heap := h }

def uniqueInner (l : FList) (i : Option Nat) : Nat → Except Err FList
  | 0 => .error .fuel
  | fuel + 1 =>
    if i = cend l then .ok l
    else do
      let a ← iterDeref l i
      let i1 ← iterPlus l i 1
      let b ← iterDeref l i1
      if a = b then do
        let i2 ← iterPlus l i 2
        match i, i2 with
        | some ai, some a2 =>
          uniqueInner
            { l with heap := setSucc l.heap ai (nd l.heap a2).succ, size_ := l.size_ - 1 }
            i fuel
        | _, _ => .error .ub
      else .ok l

def uniqueOuter (l : FList) (i : Option Nat) : Nat → Except Err (FList × Option Nat)
  | 0 => .error .fuel
  | fuel + 1 => do
    if i = cend l then .ok (l, i)
    else do
      let i1 ← iterPlus l i 1
      if i1 = cend l then .ok (l, i)
      else do
        let i2 ← iterPlus l i 2
        if i2 = cend l then .ok (l, i)
        else do
          let l2 ← uniqueInner l i (l.heap.length + 1)
          let ii ← iterInc l2 i
          uniqueOuter l2 ii fuel

/-- `unique()` in the checked build: pre-sort when unsorted, run the nested
removal loops — whose body is `i.node->succ = (i + 2).node->succ;` with a
single `size_--` — then the post-loop `if (*i == *(i + 1)) pop_back();`. -/
def uniqueFL (l : FList) : Except Err FList :=
  if l.size_ < 2 then .ok l
  else do
    let s ← sortedFL l true
    let l1 ← if s then pure l else sortFL l true
    let (l2, i) ← uniqueOuter l1 (cbegin l1) (l1.heap.length + l1.size_ + 1)
    let a ← iterDeref l2 i
    let i1 ← iterPlus l2 i 1
    let b ← iterDeref l2 i1
    if a = b then popBack l2 else .ok l2

/-- Element traversal `begin() .. end()` with checked dereference, as a
range-for over the list performs. -/
def toListGo (l : FList) (it : Option Nat) (acc : List Int) : Nat → Except Err (List Int)
  | 0 => .error .fuel
  | fuel + 1 =>
    if it = cend l then .ok acc.reverse
    else do
      let x ← iterDeref l it
      let it2 ← iterInc l it
      toListGo l it2 (x :: acc) fuel

def toListE (l : FList) : Except Err (List Int) :=
  toListGo l (cbegin l) [] (l.heap.length + 1)

/-- Construction of the local copy `new_list` inside `link` / `merge`:
fresh sentinels allocated in the same arena, then element-wise `push_back`. -/
def mkCopyIn (h : Heap) (ys : List Int) : FList :=
  ys.foldl pushBack
    { heap := h ++ [⟨0, some (h.length + 1)⟩, ⟨0, none⟩],
      head := h.length, tail := h.length + 1, size_ := 0 }

/-- `link(list_)`: append a copy of `list_`; the receiver's tail sentinel
absorbs the copy's first element node. -/
def linkFL (l other : FList) : Except Err FList :=
  if other.size_ = 0 then .ok l
  else do
    let ys ← toListE other
    let nl := mkCopyIn l.heap ys
    match (nd nl.heap nl.head).succ with
    | some c0 =>
      let h1 := setData nl.heap l.tail (nd nl.heap c0).data
      let h2 := setSucc h1 l.tail (nd nl.heap c0).succ
      .ok { heap := h2, head := l.head, tail := nl.tail, size_ := l.size_ + other.size_ }
    | none => .error .ub

/-- Main loop of `merge`: on `i->data == j->data` the receiver's node is
appended but BOTH chains advance, so the argument's element is skipped. -/
def mergeLoop (asc : Bool) (end1 end2 : Nat) :
    Heap → Option Nat → Option Nat → Nat → Nat → Nat →
    Except Err (Heap × Option Nat × Option Nat × Nat × Nat)
  | _, _, _, _, _, 0 => .error .fuel
  | h, some ia, some ja, hp, ns, fuel + 1 =>
    if ia = end1 then .ok (h, some ia, some ja, hp, ns)
    else if ja = end2 then .ok (h, some ia, some ja, hp, ns)
    else
      let di := (nd h ia).data
      let dj := (nd h ja).data
      if di = dj then
        let h2 := setSucc h hp (some ia)
        mergeLoop asc end1 end2 h2 ((nd h2 ia).succ) ((nd h2 ja).succ) ia (ns + 1) fuel
      else if Bool.xor (decide (di < dj)) (!asc) then
        let h2 := setSucc h hp (some ia)
        mergeLoop asc end1 end2 h2 ((nd h2 ia).succ) (some ja) ia (ns + 1) fuel
      else
        let h2 := setSucc h hp (some ja)
        mergeLoop asc end1 end2 h2 (some ia) ((nd h2 ja).succ) ja (ns + 1) fuel
  | h, i, j, hp, ns, _ + 1 => .ok (h, i, j, hp, ns)

/-- A drain loop of `merge` (`while (p && p != end) { h = h->succ = p; ... }`;
here the end marker is a saved local, not a live heap read). -/
def mergeDrain (endA : Nat) : Heap → Option Nat → Nat → Nat → Nat →
    Except Err (Heap × Nat × Nat)
  | _, _, _, _, 0 => .error .fuel
  | h, none, hp, ns, _ + 1 => .ok (h, hp, ns)
  | h, some pa, hp, ns, fuel + 1 =>
    if pa = endA then .ok (h, hp, ns)
    else
      let h2 := setSucc h hp (some pa)
      mergeDrain endA h2 ((nd h2 pa).succ) pa (ns + 1) fuel

/-- `merge(list_, is_ascending)` of the checked build: copy the argument,
pre-sort unsorted operands, run the three relink loops, then
`tail = h->succ; size_ = new_size;`. -/
def mergeFL (l other : FList) (asc : Bool) : Except Err FList :=
  if other.size_ = 0 then .ok l
  else do
    let ys ← toListE other
    let nl0 := mkCopyIn l.heap ys
    let s1 ← sortedFL l asc
    let lBig : FList := { l with heap := nl0.heap }
    let lBig2 ← if s1 then pure lBig else sortFL lBig asc
    let s2 ← sortedFL other asc
    let nl1 : FList := { nl0 with heap := lBig2.heap }
    let nl2 ← if s2 then pure nl1 else sortFL nl1 asc
    let bigH := nl2.heap
    let i := (nd bigH l.head).succ
    let j := (nd bigH nl0.head).succ
    let fuel := bigH.length + 1
    let (h1, i1, j1, hp1, ns1) ← mergeLoop asc l.tail nl0.tail bigH i j l.head 0 fuel
    let (h2, hp2, ns2) ← mergeDrain l.tail h1 i1 hp1 ns1 fuel
    let (h3, hp3, ns3) ← mergeDrain nl0.tail h2 j1 hp2 ns2 fuel
    match (nd h3 hp3).succ with
    | some t => .ok { heap := h3, head := l.head, tail := t, size_ := ns3 }
    | none => .error .ub

def backMGo (l : FList) (i : Option Nat) : Nat → Except Err (Option Nat)
  | 0 => .error .fuel
  | fuel + 1 => do
    let i1 ← iterPlus l i 1
    if i1 ≠ cend l then do
      backMGo l (← iterInc l i) fuel
    else .ok i

/-- `back()` (mutable overload): scan from `before_begin` while
`i + 1 != end()`. -/
def backM (l : FList) : Except Err (Option Nat) :=
  backMGo l (cbeforeBegin l) (l.heap.length + 1)

/-- `back() const`: the source returns `iterator(head->succ, this)` — the
first element, the same body as `front`. -/
def backC (l : FList) : Option Nat := (nd l.heap l.head).succ

/-! ## Push/pop workloads -/

/-- One step of a push/pop workload. -/
inductive QOp where
  | push (e : Int)
  | popF
  | popB

/-- Run one workload step. -/
def runOp (l : FList) : QOp → Except Err FList
  | .push e => .ok (pushBack l e)
  | .popF => popFront l
  | .popB => popBack l

/-- Run a workload left to right. -/
def runOps (l : FList) : List QOp → Except Err FList
  | [] => .ok l
  | op :: ops => do runOps (← runOp l op) ops

/-- The abstract effect of one step on the element sequence. -/
def absOp (xs : List Int) : QOp → List Int
  | .push e => xs ++ [e]
  | .popF => xs.tail
  | .popB => xs.dropLast

def absOps (xs : List Int) : List QOp → List Int
  | [] => xs
  | op :: ops => absOps (absOp xs op) ops

/-- Number of pushes in a workload. -/
def pushCount : List QOp → Nat
  | [] => 0
  | .push _ :: ops => pushCount ops + 1
  | .popF :: ops => pushCount ops
  | .popB :: ops => pushCount ops

/-- Number of pops in a workload. -/
def popCount : List QOp → Nat
  | [] => 0
  | .push _ :: ops => popCount ops
  | .popF :: ops => popCount ops + 1
  | .popB :: ops => popCount ops + 1

/-- Number of pops that actually remove an element, given the element
sequence at the start (a pop on an empty list is a no-op). -/
def goodPops (xs : List Int) : List QOp → Nat
  | [] => 0
  | .push e :: ops => goodPops (xs ++ [e]) ops
  | .popF :: ops => (if xs = [] then 0 else 1) + goodPops xs.tail ops
  | .popB :: ops => (if xs = [] then 0 else 1) + goodPops xs.dropLast ops

/-- The pushed elements, in order. -/
def pushedElems : List QOp → List Int
  | [] => []
  | .push e :: ops => e :: pushedElems ops
  | .popF :: ops => pushedElems ops
  | .popB :: ops => pushedElems ops

/-! ## Reference functions mirroring the comparison logic of the source -/

/-- The adjacent-pair order test of `sorted`: a pair is in order when the two
elements are equal or `(a < b)` agrees with `is_ascending`. -/
def pairOK (asc : Bool) (a b : Int) : Bool := a == b || !(Bool.xor (decide (a < b)) asc)

/-- Bool-valued sortedness matching the adjacent-pair logic of `sorted`. -/
def sortedB (asc : Bool) : List Int → Bool
  | [] => true
  | [_] => true
  | a :: b :: rest => pairOK asc a b && sortedB asc (b :: rest)


/-! ## Representation predicate and heap lemmas -/

/-- `linksTo h a cs`: starting from node `a`, the successive successor fields
run exactly through the addresses `cs`. -/
def linksTo (h : Heap) (a : Nat) : List Nat → Prop
  | [] => True
  | c :: cs => (nd h a).succ = some c ∧ linksTo h c cs

instance instDecidableLinksTo (h : Heap) : (a : Nat) → (cs : List Nat) → Decidable (linksTo h a cs)
  | _, [] => isTrue trivial
  | a, c :: cs =>
    haveI : Decidable (linksTo h c cs) := instDecidableLinksTo h c cs
    inferInstanceAs (Decidable (And _ _))

/-- The data sequence stored at a list of addresses. -/
def dataOf (h : Heap) (es : List Nat) : List Int := es.map fun a => (nd h a).data

/-- All node addresses owned by a list with element addresses `es`. -/
def allAddrs (l : FList) (es : List Nat) : List Nat := l.head :: (es ++ [l.tail])

/-- Well-formedness: the chain from `head` runs through the element addresses
`es` and then the tail sentinel, the size field matches, all owned addresses
are distinct and allocated, and the tail sentinel ends the chain. -/
def WF (l : FList) (es : List Nat) : Prop :=
  linksTo l.heap l.head (es ++ [l.tail]) ∧
  l.size_ = es.length ∧
  (allAddrs l es).Nodup ∧
  (∀ a ∈ allAddrs l es, a < l.heap.length) ∧
  (nd l.heap l.tail).succ = none

instance instDecWF (l : FList) (es : List Nat) : Decidable (WF l es) :=
  inferInstanceAs (Decidable (linksTo l.heap l.head (es ++ [l.tail]) ∧
    l.size_ = es.length ∧ (allAddrs l es).Nodup ∧
    (∀ a ∈ allAddrs l es, a < l.heap.length) ∧ (nd l.heap l.tail).succ = none))

/-- The cursor `p` sits at the start of the element suffix `rest` (or at the
tail sentinel when `rest` is empty). -/
def startsChain (h : Heap) (p : Option Nat) (rest : List Nat) (t : Nat) : Prop :=
  match rest with
  | [] => p = some t
  | r :: rs => p = some r ∧ linksTo h r (rs ++ [t])

theorem length_setSucc (h : Heap) (w : Nat) (p : Option Nat) :
    (setSucc h w p).length = h.length := List.length_set h w _

theorem length_setData (h : Heap) (w : Nat) (v : Int) :
    (setData h w v).length = h.length := List.length_set h w _

theorem nd_setSucc_ne (h : Heap) (w : Nat) (p : Option Nat) {x : Nat} (hx : x ≠ w) :
    nd (setSucc h w p) x = nd h x := by
  unfold nd setSucc
  rw [List.getD_eq_getElem?_getD, List.getD_eq_getElem?_getD,
    List.getElem?_set_ne (fun he => hx he.symm)]

theorem nd_setSucc_self (h : Heap) (w : Nat) (p : Option Nat) (hw : w < h.length) :
    nd (setSucc h w p) w = ⟨(nd h w).data, p⟩ := by
  unfold nd setSucc
  rw [List.getD_eq_getElem?_getD, List.getElem?_set_self hw]
  rfl

theorem data_setSucc (h : Heap) (w : Nat) (p : Option Nat) (x : Nat) :
    (nd (setSucc h w p) x).data = (nd h x).data := by
  rcases eq_or_ne x w with rfl | hx
  · by_cases hw : x < h.length
    · rw [nd_setSucc_self h x p hw]
    · unfold setSucc
      rw [List.set_eq_of_length_le (by omega)]
  · rw [nd_setSucc_ne h w p hx]

theorem nd_setData_ne (h : Heap) (w : Nat) (v : Int) {x : Nat} (hx : x ≠ w) :
    nd (setData h w v) x = nd h x := by
  unfold nd setData
  rw [List.getD_eq_getElem?_getD, List.getD_eq_getElem?_getD,
    List.getElem?_set_ne (fun he => hx he.symm)]

theorem nd_setData_self (h : Heap) (w : Nat) (v : Int) (hw : w < h.length) :
    nd (setData h w v) w = ⟨v, (nd h w).succ⟩ := by
  unfold nd setData
  rw [List.getD_eq_getElem?_getD, List.getElem?_set_self hw]
  rfl

theorem succ_setData (h : Heap) (w : Nat) (v : Int) (x : Nat) :
    (nd (setData h w v) x).succ = (nd h x).succ := by
  rcases eq_or_ne x w with rfl | hx
  · by_cases hw : x < h.length
    · rw [nd_setData_self h x v hw]
    · unfold setData
      rw [List.set_eq_of_length_le (by omega)]
  · rw [nd_setData_ne h w v hx]

theorem nd_append_lt (h h2 : Heap) {a : Nat} (ha : a < h.length) :
    nd (h ++ h2) a = nd h a := by
  unfold nd
  rw [List.getD_eq_getElem?_getD, List.getD_eq_getElem?_getD, List.getElem?_append_left ha]

/-! ## Iterator step lemmas -/

theorem iterPlus_some_eq (l : FList) {c : Nat} (hc : c ≠ l.tail) (n : Nat) :
    iterPlus l (some c) n = walkSucc l.heap (some c) n := by
  show (if c = l.tail then Except.error Err.overflow else walkSucc l.heap (some c) n) = _
  rw [if_neg hc]

theorem walkSucc_zero (h : Heap) (p : Option Nat) : walkSucc h p 0 = .ok p := by
  cases p <;> rfl

theorem walkSucc_some (h : Heap) (a : Nat) (n : Nat) :
    walkSucc h (some a) (n + 1) = walkSucc h (nd h a).succ n := rfl

theorem iterPlus_one (l : FList) {c : Nat} (hc : c ≠ l.tail) :
    iterPlus l (some c) 1 = .ok (nd l.heap c).succ := by
  rw [iterPlus_some_eq l hc, walkSucc_some]
  exact walkSucc_zero _ _

theorem iterPlus_two (l : FList) {c r : Nat} (hc : c ≠ l.tail)
    (hr : (nd l.heap c).succ = some r) :
    iterPlus l (some c) 2 = .ok (nd l.heap r).succ := by
  rw [iterPlus_some_eq l hc, walkSucc_some, hr, walkSucc_some]
  exact walkSucc_zero _ _

theorem iterInc_some (l : FList) {c : Nat} (hc : c ≠ l.tail) :
    iterInc l (some c) = .ok (nd l.heap c).succ := by
  show (if c = l.tail then Except.error Err.overflow else .ok (nd l.heap c).succ) = _
  rw [if_neg hc]

theorem iterDeref_some (l : FList) {c : Nat} (hh : c ≠ l.head) (ht : c ≠ l.tail) :
    iterDeref l (some c) = .ok (nd l.heap c).data := by
  show (if c = l.head then Except.error Err.underflow
    else if c = l.tail then Except.error Err.overflow else .ok (nd l.heap c).data) = _
  rw [if_neg hh, if_neg ht]

/-- Reduction of a bind whose first computation already succeeded. -/
theorem okBind {α β : Type} (x : α) (f : α → Except Err β) :
    (do
      let a ← (Except.ok x : Except Err α)
      f a) = f x := rfl

theorem dataOf_setSucc (h : Heap) (w : Nat) (p : Option Nat) (es : List Nat) :
    dataOf (setSucc h w p) es = dataOf h es := by
  unfold dataOf
  exact List.map_congr_left fun a _ => data_setSucc h w p a

theorem dataOf_setData_notmem (h : Heap) (w : Nat) (v : Int) {es : List Nat}
    (hw : w ∉ es) : dataOf (setData h w v) es = dataOf h es := by
  unfold dataOf
  exact List.map_congr_left fun a ha => by
    rw [nd_setData_ne h w v (fun he => hw (he ▸ ha))]

theorem dataOf_append_lt (h h2 : Heap) {es : List Nat}
    (hes : ∀ a ∈ es, a < h.length) : dataOf (h ++ h2) es = dataOf h es := by
  unfold dataOf
  exact List.map_congr_left fun a ha => by rw [nd_append_lt h h2 (hes a ha)]

theorem linksTo_append {h : Heap} : ∀ {xs : List Nat} {a : Nat} {ys : List Nat},
    linksTo h a (xs ++ ys) ↔ linksTo h a xs ∧ linksTo h (xs.getLastD a) ys
  | [], a, ys => by simp [linksTo]
  | x :: xs, a, ys => by
    rw [List.cons_append, List.getLastD_cons]
    show ((nd h a).succ = some x ∧ linksTo h x (xs ++ ys)) ↔ _
    rw [@linksTo_append h xs x ys]
    show _ ↔ ((nd h a).succ = some x ∧ linksTo h x xs) ∧ _
    tauto

/-- `linksTo` only reads the successor fields of the start node and every
chain node except the last. -/
theorem linksTo_congr {h1 h2 : Heap} : ∀ {xs : List Nat} {a : Nat},
    (∀ x ∈ a :: xs.dropLast, (nd h2 x).succ = (nd h1 x).succ) →
    linksTo h1 a xs → linksTo h2 a xs
  | [], _, _, _ => trivial
  | [c], a, hc, hl => by
    refine ⟨?_, trivial⟩
    rw [hc a (by simp)]
    exact hl.1
  | c :: d :: cs, a, hc, hl => by
    refine ⟨?_, ?_⟩
    · rw [hc a (by simp)]
      exact hl.1
    · refine linksTo_congr (fun x hx => hc x ?_) hl.2
      rw [List.dropLast_cons_of_ne_nil (by simp)]
      exact List.mem_cons_of_mem _ hx

/-- Weaker congruence: untouched everywhere on `a :: xs`. -/
theorem linksTo_congr_mem {h1 h2 : Heap} {xs : List Nat} {a : Nat}
    (hc : ∀ x ∈ a :: xs, (nd h2 x).succ = (nd h1 x).succ) :
    linksTo h1 a xs → linksTo h2 a xs :=
  linksTo_congr fun x hx => hc x (by
    rcases List.mem_cons.1 hx with h | h
    · simp [h]
    · exact List.mem_cons_of_mem _ (List.dropLast_subset _ h))

theorem nodup_length_le {as : List Nat} {n : Nat} (h1 : as.Nodup) (h2 : ∀ a ∈ as, a < n) :
    as.length ≤ n := by
  classical
  calc as.length = as.toFinset.card := (List.toFinset_card_of_nodup h1).symm
    _ ≤ (Finset.range n).card := Finset.card_le_card fun x hx => by
        rw [List.mem_toFinset] at hx
        simpa using h2 x hx
    _ = n := Finset.card_range n

theorem WF.size_lt {l : FList} {es : List Nat} (hwf : WF l es) :
    es.length + 2 ≤ l.heap.length := by
  have := nodup_length_le hwf.2.2.1 hwf.2.2.2.1
  simpa [allAddrs] using this

/-! ## WF accessors and consequences -/

theorem WF.links {l : FList} {es : List Nat} (h : WF l es) :
    linksTo l.heap l.head (es ++ [l.tail]) := h.1

theorem WF.size {l : FList} {es : List Nat} (h : WF l es) : l.size_ = es.length := h.2.1

theorem WF.nodup {l : FList} {es : List Nat} (h : WF l es) : (allAddrs l es).Nodup := h.2.2.1

theorem WF.bounds {l : FList} {es : List Nat} (h : WF l es) :
    ∀ a ∈ allAddrs l es, a < l.heap.length := h.2.2.2.1

theorem WF.tailSucc {l : FList} {es : List Nat} (h : WF l es) :
    (nd l.heap l.tail).succ = none := h.2.2.2.2

theorem WF.head_lt {l : FList} {es : List Nat} (h : WF l es) : l.head < l.heap.length :=
  h.bounds _ (by simp [allAddrs])

theorem WF.tail_lt {l : FList} {es : List Nat} (h : WF l es) : l.tail < l.heap.length :=
  h.bounds _ (by simp [allAddrs])

theorem WF.mem_lt {l : FList} {es : List Nat} (h : WF l es) {a : Nat} (ha : a ∈ es) :
    a < l.heap.length := h.bounds _ (by simp [allAddrs, ha])

theorem WF.head_notmem {l : FList} {es : List Nat} (h : WF l es) : l.head ∉ es := by
  have hn := h.nodup
  simp only [allAddrs, List.nodup_cons, List.mem_append] at hn
  exact fun hmem => hn.1 (Or.inl hmem)

theorem WF.head_ne_tail {l : FList} {es : List Nat} (h : WF l es) : l.head ≠ l.tail := by
  have hn := h.nodup
  simp only [allAddrs, List.nodup_cons, List.mem_append] at hn
  exact fun he => hn.1 (Or.inr (by simp [he]))

theorem WF.tail_notmem {l : FList} {es : List Nat} (h : WF l es) : l.tail ∉ es := by
  have hn := h.nodup
  simp only [allAddrs, List.nodup_cons, List.nodup_append, List.disjoint_left] at hn
  exact fun hmem => hn.2.2.2 hmem (by simp)

theorem WF.es_nodup {l : FList} {es : List Nat} (h : WF l es) : es.Nodup := by
  have hn := h.nodup
  simp only [allAddrs, List.nodup_cons, List.nodup_append] at hn
  exact hn.2.1

theorem emptyFL_wf : WF emptyFL [] := by
  refine ⟨⟨rfl, trivial⟩, rfl, ?_, ?_, rfl⟩
  · simp [allAddrs, emptyFL]
  · intro a ha
    have hd : a = 0 ∨ a = 1 := by
      simp only [allAddrs, emptyFL, List.mem_cons, List.nil_append, List.mem_singleton] at ha
      tauto
    rcases hd with rfl | rfl <;> simp [emptyFL]

/-! ## push_back characterisation -/

theorem pushBack_head (l : FList) (e : Int) : (pushBack l e).head = l.head := rfl

theorem pushBack_tail (l : FList) (e : Int) : (pushBack l e).tail = l.heap.length := rfl

theorem pushBack_size (l : FList) (e : Int) : (pushBack l e).size_ = l.size_ + 1 := rfl

theorem pushBack_heap_length (l : FList) (e : Int) :
    (pushBack l e).heap.length = l.heap.length + 1 := by
  show (setSucc (setSucc (setData (l.heap ++ [⟨0, none⟩]) l.tail e) l.tail
    (some l.heap.length)) l.heap.length none).length = _
  rw [length_setSucc, length_setSucc, length_setData, List.length_append]
  rfl

theorem pushBack_nd_lower (l : FList) (e : Int) {a : Nat} (ha : a < l.heap.length)
    (hne : a ≠ l.tail) : nd (pushBack l e).heap a = nd l.heap a := by
  show nd (setSucc (setSucc (setData (l.heap ++ [⟨0, none⟩]) l.tail e) l.tail
    (some l.heap.length)) l.heap.length none) a = _
  rw [nd_setSucc_ne _ _ _ (by omega), nd_setSucc_ne _ _ _ hne, nd_setData_ne _ _ _ hne,
    nd_append_lt _ _ ha]

theorem pushBack_nd_tail {l : FList} (e : Int) (htl : l.tail < l.heap.length) :
    nd (pushBack l e).heap l.tail = ⟨e, some l.heap.length⟩ := by
  show nd (setSucc (setSucc (setData (l.heap ++ [⟨0, none⟩]) l.tail e) l.tail
    (some l.heap.length)) l.heap.length none) l.tail = _
  have h1len : (l.heap ++ [(⟨0, none⟩ : Node)]).length = l.heap.length + 1 := by simp
  have e2 : nd (setData (l.heap ++ [⟨0, none⟩]) l.tail e) l.tail
      = ⟨e, (nd (l.heap ++ [⟨0, none⟩]) l.tail).succ⟩ :=
    nd_setData_self _ _ _ (by omega)
  have h2len : (setData (l.heap ++ [(⟨0, none⟩ : Node)]) l.tail e).length
      = l.heap.length + 1 := by rw [length_setData, h1len]
  rw [nd_setSucc_ne _ _ _ (by omega), nd_setSucc_self _ _ _ (by omega), e2]

theorem pushBack_nd_fresh (l : FList) (e : Int) (htl : l.tail < l.heap.length) :
    nd (pushBack l e).heap l.heap.length = ⟨0, none⟩ := by
  show nd (setSucc (setSucc (setData (l.heap ++ [⟨0, none⟩]) l.tail e) l.tail
    (some l.heap.length)) l.heap.length none) l.heap.length = _
  have h1 : nd (l.heap ++ [(⟨0, none⟩ : Node)]) l.heap.length = ⟨0, none⟩ := by
    unfold nd
    rw [List.getD_eq_getElem?_getD, List.getElem?_append_right (by omega)]
    simp
  have h3len : (setSucc (setData (l.heap ++ [(⟨0, none⟩ : Node)]) l.tail e) l.tail
      (some l.heap.length)).length = l.heap.length + 1 := by
    rw [length_setSucc, length_setData]
    simp
  rw [nd_setSucc_self _ _ _ (by omega), nd_setSucc_ne _ _ _ (by omega),
    nd_setData_ne _ _ _ (by omega), h1]

theorem pushBack_spec {l : FList} {es : List Nat} (hwf : WF l es) (e : Int) :
    WF (pushBack l e) (es ++ [l.tail]) ∧
    dataOf (pushBack l e).heap (es ++ [l.tail]) = dataOf l.heap es ++ [e] := by
  have htl := hwf.tail_lt
  have hhd := hwf.head_lt
  have hlen := pushBack_heap_length l e
  have htail4 := pushBack_nd_tail e htl
  have hfresh4 := pushBack_nd_fresh l e htl
  have hlow : ∀ a, a < l.heap.length → a ≠ l.tail →
      nd (pushBack l e).heap a = nd l.heap a := fun a ha hne => pushBack_nd_lower l e ha hne
  have hlinks : linksTo (pushBack l e).heap l.head ((es ++ [l.tail]) ++ [l.heap.length]) := by
    rw [linksTo_append, List.getLastD_concat]
    refine ⟨?_, ?_, trivial⟩
    · refine linksTo_congr (fun x hx => ?_) hwf.links
      have hxd : x ∈ l.head :: es := by
        have hdl : (es ++ [l.tail]).dropLast = es := by simp
        rwa [hdl] at hx
      have hxlt : x < l.heap.length := by
        rcases List.mem_cons.1 hxd with rfl | hxe
        · exact hhd
        · exact hwf.mem_lt hxe
      have hxne : x ≠ l.tail := by
        rcases List.mem_cons.1 hxd with rfl | hxe
        · exact hwf.head_ne_tail
        · exact fun he => hwf.tail_notmem (he ▸ hxe)
      rw [hlow x hxlt hxne]
    · rw [htail4]
  constructor
  · refine ⟨hlinks, ?_, ?_, ?_, ?_⟩
    · rw [pushBack_size, hwf.size]
      simp
    · show (l.head :: ((es ++ [l.tail]) ++ [l.heap.length])).Nodup
      have hsplit : l.head :: ((es ++ [l.tail]) ++ [l.heap.length])
          = (l.head :: (es ++ [l.tail])) ++ [l.heap.length] := by simp
      rw [hsplit, List.nodup_append]
      refine ⟨hwf.nodup, by simp, ?_⟩
      intro a ha hb
      have h1 : a < l.heap.length := hwf.bounds a ha
      have h2 : a = l.heap.length := by simpa using hb
      omega
    · intro a ha
      rw [hlen]
      have hd : a = l.head ∨ a ∈ es ∨ a = l.tail ∨ a = l.heap.length := by
        simp only [allAddrs, pushBack_head, pushBack_tail, List.mem_cons, List.mem_append,
          List.mem_singleton] at ha
        tauto
      rcases hd with rfl | ha2 | rfl | rfl
      · omega
      · have := hwf.mem_lt ha2
        omega
      · omega
      · omega
    · show (nd (pushBack l e).heap (pushBack l e).tail).succ = none
      rw [pushBack_tail, hfresh4]
  · unfold dataOf
    rw [List.map_append]
    congr 1
    · exact List.map_congr_left fun a ha => by
        rw [hlow a (hwf.mem_lt ha) (fun he => hwf.tail_notmem (he ▸ ha))]
    · simp [htail4]

/-! ## Construction: foldl push_back, mkList, the local copy of link/merge -/

theorem dataOf_dropLast (h : Heap) : ∀ (es : List Nat),
    dataOf h es.dropLast = (dataOf h es).dropLast
  | [] => rfl
  | [_] => rfl
  | a :: b :: es => by
    have ih := dataOf_dropLast h (b :: es)
    have h1 : (a :: b :: es).dropLast = a :: (b :: es).dropLast :=
      List.dropLast_cons_of_ne_nil (by simp)
    have h2 : dataOf h (a :: b :: es) = (nd h a).data :: dataOf h (b :: es) := rfl
    have h3 : ((nd h a).data :: dataOf h (b :: es)).dropLast
        = (nd h a).data :: (dataOf h (b :: es)).dropLast :=
      List.dropLast_cons_of_ne_nil (by simp [dataOf])
    rw [h1, h2, h3, ← ih]
    rfl

theorem foldl_pushBack_spec :
    ∀ (ys : List Int) (l : FList) (es : List Nat), WF l es →
    ∃ es2 : List Nat,
      WF (ys.foldl pushBack l) es2 ∧
      dataOf (ys.foldl pushBack l).heap es2 = dataOf l.heap es ++ ys ∧
      (ys.foldl pushBack l).head = l.head ∧
      l.heap.length ≤ (ys.foldl pushBack l).heap.length ∧
      (∀ a ∈ allAddrs (ys.foldl pushBack l) es2, a ∈ allAddrs l es ∨ l.heap.length ≤ a) ∧
      (∀ a, a < l.heap.length → a ≠ l.tail → nd (ys.foldl pushBack l).heap a = nd l.heap a)
  | [], l, es, hwf =>
    ⟨es, hwf, by simp, rfl, le_refl _, fun a ha => Or.inl ha, fun _ _ _ => rfl⟩
  | y :: ys, l, es, hwf => by
    obtain ⟨hwf2, hdata2⟩ := pushBack_spec hwf y
    obtain ⟨es2, ih1, ih2, ih3, ih4, ih5, ih6⟩ :=
      foldl_pushBack_spec ys (pushBack l y) (es ++ [l.tail]) hwf2
    have hfold : (y :: ys).foldl pushBack l = ys.foldl pushBack (pushBack l y) := rfl
    rw [hfold]
    have hlen := pushBack_heap_length l y
    refine ⟨es2, ih1, ?_, ?_, ?_, ?_, ?_⟩
    · rw [ih2, hdata2]
      simp
    · rw [ih3, pushBack_head]
    · omega
    · intro a ha
      rcases ih5 a ha with hmem | hge
      · have hd : a = l.head ∨ a ∈ es ∨ a = l.tail ∨ a = l.heap.length := by
          simp only [allAddrs, pushBack_head, pushBack_tail, List.mem_cons, List.mem_append,
            List.mem_singleton] at hmem
          tauto
        rcases hd with rfl | h2 | rfl | rfl
        · exact Or.inl (by simp [allAddrs])
        · exact Or.inl (by simp [allAddrs, h2])
        · exact Or.inl (by simp [allAddrs])
        · exact Or.inr (le_refl _)
      · exact Or.inr (by omega)
    · intro a ha hne
      rw [ih6 a (by omega) (by rw [pushBack_tail]; omega), pushBack_nd_lower l y ha hne]

theorem mkList_spec (xs : List Int) :
    ∃ es, WF (mkList xs) es ∧ dataOf (mkList xs).heap es = xs ∧ (mkList xs).head = 0 := by
  obtain ⟨es, h1, h2, h3, _, _, _⟩ := foldl_pushBack_spec xs emptyFL [] emptyFL_wf
  exact ⟨es, h1, by simpa [dataOf] using h2, h3⟩

/-- The starting state of the local copy `new_list` allocated on top of a
heap `h0`: fresh sentinels at `h0.length` and `h0.length + 1`. -/
theorem mkCopyIn_start_wf (h0 : Heap) :
    WF { heap := h0 ++ [⟨0, some (h0.length + 1)⟩, ⟨0, none⟩],
         head := h0.length, tail := h0.length + 1, size_ := 0 } [] := by
  refine ⟨⟨?_, trivial⟩, rfl, ?_, ?_, ?_⟩
  · show (nd (h0 ++ [⟨0, some (h0.length + 1)⟩, ⟨0, none⟩]) h0.length).succ = _
    unfold nd
    rw [List.getD_eq_getElem?_getD, List.getElem?_append_right (by omega)]
    simp
  · simp [allAddrs]
  · intro a ha
    have hd : a = h0.length ∨ a = h0.length + 1 := by
      simp only [allAddrs, List.mem_cons, List.nil_append, List.mem_singleton] at ha
      tauto
    rcases hd with rfl | rfl <;> simp <;> omega
  · show (nd (h0 ++ [⟨0, some (h0.length + 1)⟩, ⟨0, none⟩]) (h0.length + 1)).succ = _
    unfold nd
    rw [List.getD_eq_getElem?_getD, List.getElem?_append_right (by omega)]
    have hsub : h0.length + 1 - h0.length = 1 := by omega
    rw [hsub]
    simp

theorem mkCopyIn_spec (h0 : Heap) (ys : List Int) :
    ∃ fs, WF (mkCopyIn h0 ys) fs ∧
      dataOf (mkCopyIn h0 ys).heap fs = ys ∧
      (mkCopyIn h0 ys).head = h0.length ∧
      h0.length + 2 ≤ (mkCopyIn h0 ys).heap.length ∧
      (∀ a ∈ allAddrs (mkCopyIn h0 ys) fs, h0.length ≤ a) ∧
      (∀ a, a < h0.length → nd (mkCopyIn h0 ys).heap a = nd h0 a) := by
  simp only [mkCopyIn]
  have hstart := mkCopyIn_start_wf h0
  obtain ⟨fs, h1, h2, h3, h4, h5, h6⟩ := foldl_pushBack_spec ys _ [] hstart
  refine ⟨fs, h1, by simpa [dataOf] using h2, h3, by simpa using h4, ?_, ?_⟩
  · intro a ha
    rcases h5 a ha with hmem | hge
    · have hd : a = h0.length ∨ a = h0.length + 1 := by
        simp only [allAddrs, List.mem_cons, List.nil_append, List.mem_singleton] at hmem
        tauto
      rcases hd with rfl | rfl <;> omega
    · simp at hge
      omega
  · intro a ha
    rw [h6 a (by simp; omega) (by show a ≠ h0.length + 1; omega)]
    exact nd_append_lt _ _ ha

/-! ## pop_front and pop_back characterisation -/

theorem popFront_spec {l : FList} {es : List Nat} (hwf : WF l es) :
    (es = [] ∧ popFront l = .ok l) ∨
    ∃ e rest, es = e :: rest ∧
      popFront l = .ok { l with head := e, size_ := l.size_ - 1 } ∧
      WF { l with head := e, size_ := l.size_ - 1 } rest := by
  match es, hwf with
  | [], hwf =>
    left
    refine ⟨rfl, ?_⟩
    unfold popFront
    rw [if_pos (by rw [hwf.size]; rfl)]
  | e :: rest, hwf =>
    right
    refine ⟨e, rest, rfl, ?_, ?_⟩
    · unfold popFront
      rw [if_neg (by rw [hwf.size]; simp), hwf.links.1]
    · refine ⟨hwf.links.2, ?_, ?_, ?_, hwf.tailSucc⟩
      · rw [hwf.size]
        simp
      · exact hwf.nodup.sublist (by
          show (e :: (rest ++ [l.tail])).Sublist (l.head :: (e :: rest ++ [l.tail]))
          exact List.sublist_cons_self _ _)
      · intro a ha
        refine hwf.bounds a ?_
        show a ∈ l.head :: (e :: rest ++ [l.tail])
        have hd : a ∈ e :: (rest ++ [l.tail]) := ha
        simp only [List.mem_cons, List.mem_append] at hd ⊢
        tauto

theorem popBackGo_spec (l : FList) : ∀ (rest : List Nat) (c : Nat) (fuel : Nat),
    rest.length + 1 ≤ fuel → rest ≠ [] →
    c ≠ l.tail → l.tail ∉ rest →
    linksTo l.heap c (rest ++ [l.tail]) →
    popBackGo l (some c) fuel
      = .ok { l with heap := setSucc l.heap (rest.dropLast.getLastD c) (some l.tail), size_ := l.size_ - 1 } := by
  intro rest
  induction rest with
  | nil => intro c fuel _ hne; exact absurd rfl hne
  | cons r rs ih =>
    intro c fuel hfuel _ hct htl hlinks
    match fuel, hfuel with
    | fuel + 1, hfuel =>
      have hsucc_c : (nd l.heap c).succ = some r := hlinks.1
      have hrt : r ≠ l.tail := fun he => htl (by simp [he])
      match rs, hlinks with
      | [], hlinks =>
        have hsucc_r : (nd l.heap r).succ = some l.tail := hlinks.2.1
        show (do
          let i2 ← iterPlus l (some c) 2
          if i2 ≠ cend l then do
            popBackGo l (← iterInc l (some c)) fuel
          else
            .ok { l with heap := setSucc l.heap c (some l.tail), size_ := l.size_ - 1 }) = _
        have hplus : iterPlus l (some c) 2 = .ok (some l.tail) := by
          rw [iterPlus_two l hct hsucc_c, hsucc_r]
        rw [hplus]
        show (if some l.tail ≠ cend l then _ else _) = _
        rw [if_neg (by simp [cend])]
        rfl
      | s :: ss, hlinks =>
        have hsucc_r : (nd l.heap r).succ = some s := hlinks.2.1
        have hst : s ≠ l.tail := fun he => htl (by simp [he])
        show (do
          let i2 ← iterPlus l (some c) 2
          if i2 ≠ cend l then do
            popBackGo l (← iterInc l (some c)) fuel
          else
            .ok { l with heap := setSucc l.heap c (some l.tail), size_ := l.size_ - 1 }) = _
        have hplus : iterPlus l (some c) 2 = .ok (some s) := by
          rw [iterPlus_two l hct hsucc_c, hsucc_r]
        rw [hplus]
        show (if some s ≠ cend l then _ else _) = _
        rw [if_pos (by simp [cend, hst])]
        have hinc : iterInc l (some c) = .ok (some r) := by
          rw [iterInc_some l hct, hsucc_c]
        rw [hinc]
        show popBackGo l (some r) fuel = _
        have hres := ih r fuel (by simp at hfuel ⊢; omega) (by simp) hrt
          (fun hmem => htl (by simp [hmem])) hlinks.2
        rw [hres]
        have hlast : (r :: s :: ss).dropLast.getLastD c = (s :: ss).dropLast.getLastD r := by
          rw [List.dropLast_cons_of_ne_nil (by simp), List.getLastD_cons]
        rw [hlast]

/-- Writing the successor of the LAST node of a chain does not disturb the
chain itself (the last successor field is never read by `linksTo`). -/
theorem linksTo_setSucc_getLastD {h : Heap} {a : Nat} {xs : List Nat} (p : Option Nat)
    (hnd : (a :: xs).Nodup) (hl : linksTo h a xs) :
    linksTo (setSucc h (xs.getLastD a) p) a xs := by
  rcases List.eq_nil_or_concat xs with rfl | ⟨pp, q, hx⟩
  · trivial
  · rw [List.concat_eq_append] at hx
    subst hx
    rw [List.getLastD_concat]
    refine linksTo_congr (fun x hx => ?_) hl
    refine congrArg _ (nd_setSucc_ne _ _ _ ?_)
    intro he
    rw [List.dropLast_concat] at hx
    subst he
    rcases List.mem_cons.1 hx with he2 | he2
    · exact (List.nodup_cons.1 hnd).1 (by simp [← he2])
    · have hnd2 : (pp ++ [x]).Nodup := (List.nodup_cons.1 hnd).2
      rw [List.nodup_append] at hnd2
      exact hnd2.2.2 he2 (by simp)

/-- Extending a chain by one node: write `some c` into the successor of the
last node. -/
theorem linksTo_snoc_setSucc {h : Heap} {a c : Nat} {xs : List Nat}
    (hnd : (a :: xs).Nodup) (hlt : xs.getLastD a < h.length) (hl : linksTo h a xs) :
    linksTo (setSucc h (xs.getLastD a) (some c)) a (xs ++ [c]) := by
  rw [linksTo_append]
  refine ⟨linksTo_setSucc_getLastD _ hnd hl, ?_, trivial⟩
  rw [nd_setSucc_self _ _ _ hlt]

theorem popBack_spec {l : FList} {es : List Nat} (hwf : WF l es) :
    (es = [] ∧ popBack l = .ok l) ∨
    (es ≠ [] ∧
      popBack l = .ok { l with heap := setSucc l.heap (es.dropLast.getLastD l.head) (some l.tail), size_ := l.size_ - 1 } ∧
      WF { l with heap := setSucc l.heap (es.dropLast.getLastD l.head) (some l.tail), size_ := l.size_ - 1 } es.dropLast ∧
      dataOf (setSucc l.heap (es.dropLast.getLastD l.head) (some l.tail)) es.dropLast
        = (dataOf l.heap es).dropLast) := by
  rcases List.eq_nil_or_concat es with rfl | ⟨pre, last, hes⟩
  · left
    refine ⟨rfl, ?_⟩
    unfold popBack
    rw [if_pos (by rw [hwf.size]; rfl)]
  · rw [List.concat_eq_append] at hes
    subst hes
    right
    have hne : pre ++ [last] ≠ ([] : List Nat) := by simp
    have hwrite : (pre ++ [last]).dropLast = pre := List.dropLast_concat
    have hnd_hp : (l.head :: pre).Nodup := by
      refine hwf.nodup.sublist ?_
      show (l.head :: pre).Sublist (l.head :: ((pre ++ [last]) ++ [l.tail]))
      refine List.Sublist.cons₂ _ ?_
      refine List.sublist_append_of_sublist_left ?_
      exact List.sublist_append_of_sublist_left (List.Sublist.refl _)
    have hw_mem : pre.getLastD l.head ∈ l.head :: pre := by
      rcases List.eq_nil_or_concat pre with rfl | ⟨pp, q, hpq⟩
      · simp
      · rw [List.concat_eq_append] at hpq
        subst hpq
        rw [List.getLastD_concat]
        simp
    have hw_lt : pre.getLastD l.head < l.heap.length := by
      rcases List.mem_cons.1 hw_mem with he | he
      · rw [he]; exact hwf.head_lt
      · exact hwf.mem_lt (List.mem_append_left _ he)
    have hw_ne_tail : pre.getLastD l.head ≠ l.tail := by
      rcases List.mem_cons.1 hw_mem with he | he
      · rw [he]; exact hwf.head_ne_tail
      · exact fun hc => hwf.tail_notmem (hc ▸ List.mem_append_left _ he)
    have hlinks0 := hwf.links
    rw [show ((pre ++ [last]) ++ [l.tail]) = pre ++ ([last] ++ [l.tail]) by simp,
      linksTo_append] at hlinks0
    have hpre : linksTo l.heap l.head pre := hlinks0.1
    refine ⟨hne, ?_, ?_, ?_⟩
    · unfold popBack
      rw [if_neg (by rw [hwf.size]; simp)]
      simp only [cbeforeBegin]
      rw [popBackGo_spec l (pre ++ [last]) l.head (l.heap.length + 1)
        (by have := hwf.size_lt; simp at this ⊢; omega) hne
        hwf.head_ne_tail hwf.tail_notmem hwf.links]
    · rw [hwrite]
      refine ⟨?_, ?_, ?_, ?_, ?_⟩
      · exact linksTo_snoc_setSucc hnd_hp hw_lt hpre
      · rw [hwf.size]
        show (pre ++ [last]).length - 1 = pre.length
        simp
      · show (l.head :: (pre ++ [l.tail])).Nodup
        refine hwf.nodup.sublist ?_
        show (l.head :: (pre ++ [l.tail])).Sublist (l.head :: ((pre ++ [last]) ++ [l.tail]))
        refine List.Sublist.cons₂ _ ?_
        rw [show ((pre ++ [last]) ++ [l.tail]) = pre ++ ([last] ++ [l.tail]) by simp]
        exact List.Sublist.append_left (List.sublist_cons_self _ _) pre
      · intro a ha
        rw [length_setSucc]
        refine hwf.bounds a ?_
        show a ∈ l.head :: ((pre ++ [last]) ++ [l.tail])
        have hd : a ∈ l.head :: (pre ++ [l.tail]) := ha
        simp only [List.mem_cons, List.mem_append, List.mem_singleton] at hd ⊢
        tauto
      · show (nd (setSucc l.heap (pre.getLastD l.head) (some l.tail)) l.tail).succ = none
        rw [nd_setSucc_ne _ _ _ (fun he => hw_ne_tail he.symm)]
        exact hwf.tailSucc
    · rw [hwrite, dataOf_setSucc,
        show dataOf l.heap (pre ++ [last])
          = dataOf l.heap pre ++ [(nd l.heap last).data] from List.map_append _ _ _,
        List.dropLast_concat]

/-! ## Traversal and sortedness characterisation -/

theorem WF.mem_ne_head {l : FList} {es : List Nat} (h : WF l es) {a : Nat} (ha : a ∈ es) :
    a ≠ l.head := fun he => h.head_notmem (he ▸ ha)

theorem WF.mem_ne_tail {l : FList} {es : List Nat} (h : WF l es) {a : Nat} (ha : a ∈ es) :
    a ≠ l.tail := fun he => h.tail_notmem (he ▸ ha)

theorem toListGo_spec (l : FList) : ∀ (rest : List Nat) (p : Option Nat) (acc : List Int)
    (fuel : Nat),
    rest.length + 1 ≤ fuel →
    (∀ r ∈ rest, r ≠ l.head ∧ r ≠ l.tail) →
    startsChain l.heap p rest l.tail →
    toListGo l p acc fuel = .ok (acc.reverse ++ dataOf l.heap rest)
  | [], p, acc, fuel + 1, _, _, hsc => by
    have hp : p = some l.tail := hsc
    subst hp
    show (if some l.tail = cend l then Except.ok acc.reverse else _) = _
    have hc : some l.tail = cend l := rfl
    rw [if_pos hc]
    simp [dataOf]
  | r :: rs, p, acc, fuel + 1, hfuel, hmem, hsc => by
    obtain ⟨hp, hlk⟩ := hsc
    subst hp
    obtain ⟨hrh, hrt⟩ := hmem r (by simp)
    show (if some r = cend l then Except.ok acc.reverse else do
      let x ← iterDeref l (some r)
      let it2 ← iterInc l (some r)
      toListGo l it2 (x :: acc) fuel) = _
    rw [if_neg (by simp [cend, hrt]), iterDeref_some l hrh hrt, iterInc_some l hrt]
    show toListGo l (nd l.heap r).succ ((nd l.heap r).data :: acc) fuel = _
    have hnext : startsChain l.heap (nd l.heap r).succ rs l.tail := by
      match rs, hlk with
      | [], hlk => exact hlk.1
      | s :: ss, hlk => exact ⟨hlk.1, hlk.2⟩
    rw [toListGo_spec l rs (nd l.heap r).succ ((nd l.heap r).data :: acc) fuel
      (by simp at hfuel ⊢; omega) (fun x hx => hmem x (by simp [hx])) hnext]
    simp [dataOf]

theorem toListE_spec {l : FList} {es : List Nat} (hwf : WF l es) :
    toListE l = .ok (dataOf l.heap es) := by
  unfold toListE
  have hsc : startsChain l.heap (cbegin l) es l.tail := by
    match es, hwf.links with
    | [], hl => exact hl.1
    | e :: rest, hl => exact ⟨hl.1, hl.2⟩
  rw [toListGo_spec l es (cbegin l) [] (l.heap.length + 1)
    (by have := hwf.size_lt; omega)
    (fun r hr => ⟨hwf.mem_ne_head hr, hwf.mem_ne_tail hr⟩) hsc]
  simp

theorem sortedGo_spec (l : FList) (asc : Bool) : ∀ (rest : List Nat) (c : Nat) (fuel : Nat),
    rest.length + 1 ≤ fuel →
    c ≠ l.head → c ≠ l.tail →
    (∀ r ∈ rest, r ≠ l.head ∧ r ≠ l.tail) →
    linksTo l.heap c (rest ++ [l.tail]) →
    sortedGo l asc (some c) fuel = .ok (sortedB asc (dataOf l.heap (c :: rest)))
  | [], c, fuel + 1, _, hch, hct, _, hlk => by
    show (do
      let n1 ← iterPlus l (some c) 1
      if n1 ≠ cend l then _ else Except.ok true) = _
    rw [iterPlus_one l hct, hlk.1]
    show (if some l.tail ≠ cend l then _ else Except.ok true) = _
    rw [if_neg (by simp [cend])]
    simp [sortedB, dataOf]
  | r :: rs, c, fuel + 1, hfuel, hch, hct, hmem, hlk => by
    obtain ⟨hrh, hrt⟩ := hmem r (by simp)
    have hsucc : (nd l.heap c).succ = some r := hlk.1
    show (do
      let n1 ← iterPlus l (some c) 1
      if n1 ≠ cend l then do
        let a ← iterDeref l (some c)
        let b ← iterDeref l n1
        if a = b then do
          sortedGo l asc (← iterInc l (some c)) fuel
        else if Bool.xor (decide (a < b)) asc then .ok false
        else do
          sortedGo l asc (← iterInc l (some c)) fuel
      else .ok true) = _
    rw [iterPlus_one l hct, hsucc]
    show (if some r ≠ cend l then _ else Except.ok true) = _
    rw [if_pos (by simp [cend, hrt])]
    rw [iterDeref_some l hch hct, iterDeref_some l hrh hrt]
    simp only [okBind]
    have hrec : sortedGo l asc (nd l.heap c).succ fuel
        = .ok (sortedB asc (dataOf l.heap (r :: rs))) := by
      rw [hsucc]
      exact sortedGo_spec l asc rs r fuel (by simp at hfuel ⊢; omega) hrh hrt
        (fun x hx => hmem x (by simp [hx])) hlk.2
    have hrhs : sortedB asc (dataOf l.heap (c :: r :: rs))
        = (pairOK asc (nd l.heap c).data (nd l.heap r).data
            && sortedB asc (dataOf l.heap (r :: rs))) := rfl
    by_cases hab : (nd l.heap c).data = (nd l.heap r).data
    · rw [if_pos hab, iterInc_some l hct]
      simp only [okBind]
      rw [hrec, hrhs]
      have : pairOK asc (nd l.heap c).data (nd l.heap r).data = true := by
        simp [pairOK, hab]
      rw [this]
      simp
    · rw [if_neg hab]
      have hpair : pairOK asc (nd l.heap c).data (nd l.heap r).data
          = !(Bool.xor (decide ((nd l.heap c).data < (nd l.heap r).data)) asc) := by
        simp [pairOK, hab]
      by_cases hx : Bool.xor (decide ((nd l.heap c).data < (nd l.heap r).data)) asc
      · rw [if_pos hx, hrhs, hpair, hx]
        simp
      · rw [if_neg hx, iterInc_some l hct]
        simp only [okBind]
        rw [hrec, hrhs, hpair]
        simp only [Bool.not_eq_true] at hx
        rw [hx]
        simp

theorem sortedFL_spec {l : FList} {es : List Nat} (asc : Bool) (hwf : WF l es) :
    sortedFL l asc = .ok (sortedB asc (dataOf l.heap es)) := by
  unfold sortedFL
  by_cases hsz : l.size_ < 2
  · rw [if_pos hsz]
    rw [hwf.size] at hsz
    match es, hsz with
    | [], _ => rfl
    | [e], _ => rfl
  · rw [if_neg hsz]
    rw [hwf.size] at hsz
    match es, hsz with
    | e :: rest, hsz =>
      have hcb : cbegin l = some e := hwf.links.1
      rw [hcb]
      exact sortedGo_spec l asc rest e (l.heap.length + 1)
        (by have := hwf.size_lt; simp at this ⊢; omega)
        (hwf.mem_ne_head (by simp)) (hwf.mem_ne_tail (by simp))
        (fun r hr => ⟨hwf.mem_ne_head (by simp [hr]), hwf.mem_ne_tail (by simp [hr])⟩)
        hwf.links.2

/-! ## remove_at characterisation -/

theorem mem_split_first {l : List Nat} {a : Nat} (h : a ∈ l) :
    ∃ s t, l = s ++ a :: t ∧ a ∉ s := by
  induction l with
  | nil => cases h
  | cons x xs ih =>
    by_cases hx : x = a
    · subst hx
      exact ⟨[], xs, rfl, by simp⟩
    · have hm : a ∈ xs := by
        rcases List.mem_cons.1 h with he | hm
        · exact absurd he.symm hx
        · exact hm
      obtain ⟨s, t, hst, hns⟩ := ih hm
      refine ⟨x :: s, t, by rw [hst]; rfl, ?_⟩
      simp only [List.mem_cons]
      rintro (he | hm2)
      · exact hx he.symm
      · exact hns hm2

theorem removeAtGo_notfound (l : FList) (iter : Option Nat) :
    ∀ (rest : List Nat) (c : Nat) (fuel : Nat),
    rest.length + 1 ≤ fuel →
    c ≠ l.tail →
    (∀ r ∈ rest, r ≠ l.tail) →
    linksTo l.heap c (rest ++ [l.tail]) →
    (∀ r ∈ rest, iter ≠ some r) →
    removeAtGo l iter (some c) fuel = .ok ((nd l.heap l.tail).data, false, l)
  | [], c, fuel + 1, _, hct, _, hlk, _ => by
    show (do
      let i1 ← iterPlus l (some c) 1
      if i1 ≠ cend l then _ else
        Except.ok ((nd l.heap l.tail).data, false, l)) = _
    rw [iterPlus_one l hct, hlk.1]
    simp only [okBind]
    rw [if_neg (by simp [cend])]
  | r :: rs, c, fuel + 1, hfuel, hct, hmem, hlk, hne => by
    have hrt : r ≠ l.tail := hmem r (by simp)
    show (do
      let i1 ← iterPlus l (some c) 1
      if i1 ≠ cend l then
        if i1 ≠ iter then do
          removeAtGo l iter (← iterInc l (some c)) fuel
        else _
      else Except.ok ((nd l.heap l.tail).data, false, l)) = _
    rw [iterPlus_one l hct, hlk.1]
    simp only [okBind]
    rw [if_pos (by simp [cend, hrt]), if_pos (fun he => hne r (by simp) he.symm),
      iterInc_some l hct, hlk.1]
    simp only [okBind]
    exact removeAtGo_notfound l iter rs r fuel (by simp at hfuel ⊢; omega) hrt
      (fun x hx => hmem x (by simp [hx])) hlk.2
      (fun x hx => hne x (by simp [hx]))

theorem removeAtGo_found (l : FList) (b : Nat) (hbh : b ≠ l.head) (hbt : b ≠ l.tail) :
    ∀ (pre post : List Nat) (c : Nat) (fuel : Nat),
    pre.length + 1 ≤ fuel →
    c ≠ l.tail →
    b ∉ pre →
    (∀ r ∈ pre, r ≠ l.tail) →
    linksTo l.heap c (pre ++ b :: post ++ [l.tail]) →
    removeAtGo l (some b) (some c) fuel
      = .ok ((nd l.heap b).data, true,
          { l with heap := setSucc l.heap (pre.getLastD c) (nd l.heap b).succ, size_ := l.size_ - 1 })
  | [], post, c, fuel + 1, _, hct, _, _, hlk => by
    show (do
      let i1 ← iterPlus l (some c) 1
      if i1 ≠ cend l then
        if i1 ≠ some b then do
          removeAtGo l (some b) (← iterInc l (some c)) fuel
        else do
          let ret ← iterDeref l i1
          match (some c : Option Nat), i1 with
          | some a, some bb =>
            .ok (ret, true,
              { l with heap := setSucc l.heap a (nd l.heap bb).succ, size_ := l.size_ - 1 })
          | _, _ => .error .ub
      else Except.ok ((nd l.heap l.tail).data, false, l)) = _
    rw [show linksTo l.heap c (([] : List Nat) ++ b :: post ++ [l.tail])
        = ((nd l.heap c).succ = some b ∧ linksTo l.heap b (post ++ [l.tail])) from rfl] at hlk
    rw [iterPlus_one l hct, hlk.1]
    simp only [okBind]
    rw [if_pos (by simp [cend, hbt]), if_neg (by simp), iterDeref_some l hbh hbt]
    simp only [okBind]
    rfl
  | p :: ps, post, c, fuel + 1, hfuel, hct, hbp, hmem, hlk => by
    have hpt : p ≠ l.tail := hmem p (by simp)
    have hsucc : (nd l.heap c).succ = some p := hlk.1
    show (do
      let i1 ← iterPlus l (some c) 1
      if i1 ≠ cend l then
        if i1 ≠ some b then do
          removeAtGo l (some b) (← iterInc l (some c)) fuel
        else do
          let ret ← iterDeref l i1
          match (some c : Option Nat), i1 with
          | some a, some bb =>
            .ok (ret, true,
              { l with heap := setSucc l.heap a (nd l.heap bb).succ, size_ := l.size_ - 1 })
          | _, _ => .error .ub
      else Except.ok ((nd l.heap l.tail).data, false, l)) = _
    rw [iterPlus_one l hct, hsucc]
    simp only [okBind]
    rw [if_pos (by simp [cend, hpt]),
      if_pos (by simp; intro he; exact hbp (by simp [he])), iterInc_some l hct, hsucc]
    simp only [okBind]
    rw [removeAtGo_found l b hbh hbt ps post p fuel (by simp at hfuel ⊢; omega) hpt
      (fun hm => hbp (by simp [hm])) (fun x hx => hmem x (by simp [hx])) hlk.2]
    rw [List.getLastD_cons]

/-- `remove_at` with a cursor that is not one of the element nodes: the flag
is false, the sentinel data is returned, and the state is unchanged. -/
theorem removeAt_notfound {l : FList} {es : List Nat} (hwf : WF l es) {iter : Option Nat}
    (hni : ∀ r ∈ es, iter ≠ some r) :
    removeAt l iter = .ok ((nd l.heap l.tail).data, false, l) := by
  unfold removeAt
  simp only [cbeforeBegin]
  exact removeAtGo_notfound l iter es l.head (l.heap.length + 1)
    (by have := hwf.size_lt; omega) hwf.head_ne_tail
    (fun r hr => hwf.mem_ne_tail hr) hwf.links hni

/-- `remove_at` at an element node: value returned, flag true, element
unlinked, size decremented. -/
theorem removeAt_found {l : FList} {es : List Nat} (hwf : WF l es) {pre post : List Nat}
    {b : Nat} (hes : es = pre ++ b :: post) :
    removeAt l (some b)
      = .ok ((nd l.heap b).data, true,
          { l with heap := setSucc l.heap (pre.getLastD l.head) (nd l.heap b).succ, size_ := l.size_ - 1 }) ∧
    WF { l with heap := setSucc l.heap (pre.getLastD l.head) (nd l.heap b).succ, size_ := l.size_ - 1 } (pre ++ post) ∧
    dataOf (setSucc l.heap (pre.getLastD l.head) (nd l.heap b).succ) (pre ++ post)
      = dataOf l.heap pre ++ dataOf l.heap post := by
  subst hes
  have hbe : b ∈ pre ++ b :: post := by simp
  have hbh : b ≠ l.head := hwf.mem_ne_head hbe
  have hbt : b ≠ l.tail := hwf.mem_ne_tail hbe
  have hnd_all := hwf.nodup
  have hnd_hp : (l.head :: pre).Nodup := by
    refine hwf.nodup.sublist ?_
    show (l.head :: pre).Sublist (l.head :: ((pre ++ b :: post) ++ [l.tail]))
    refine List.Sublist.cons₂ _ ?_
    refine List.sublist_append_of_sublist_left ?_
    exact List.sublist_append_left _ _
  have hbp : b ∉ pre := by
    have := hwf.es_nodup
    rw [List.nodup_append] at this
    exact fun hm => this.2.2 hm (by simp)
  have hw_mem : pre.getLastD l.head ∈ l.head :: pre := by
    rcases List.eq_nil_or_concat pre with rfl | ⟨pp, q, hpq⟩
    · simp
    · rw [List.concat_eq_append] at hpq
      subst hpq
      rw [List.getLastD_concat]
      simp
  have hw_lt : pre.getLastD l.head < l.heap.length := by
    rcases List.mem_cons.1 hw_mem with he | he
    · rw [he]; exact hwf.head_lt
    · exact hwf.mem_lt (List.mem_append_left _ he)
  have hw_ne_tail : pre.getLastD l.head ≠ l.tail := by
    rcases List.mem_cons.1 hw_mem with he | he
    · rw [he]; exact hwf.head_ne_tail
    · exact fun hc => hwf.tail_notmem (hc ▸ List.mem_append_left _ he)
  have hlinks0 := hwf.links
  rw [show ((pre ++ b :: post) ++ [l.tail]) = pre ++ (b :: (post ++ [l.tail])) by simp,
    linksTo_append] at hlinks0
  have hpre : linksTo l.heap l.head pre := hlinks0.1
  have hbchain : (nd l.heap (pre.getLastD l.head)).succ = some b ∧
      linksTo l.heap b (post ++ [l.tail]) := hlinks0.2
  refine ⟨?_, ?_, ?_⟩
  · unfold removeAt
    simp only [cbeforeBegin]
    rw [removeAtGo_found l b hbh hbt pre post l.head (l.heap.length + 1)
      (by have := hwf.size_lt; simp at this ⊢; omega) hwf.head_ne_tail hbp
      (fun r hr => hwf.mem_ne_tail (by simp [hr])) (by
        rw [show (pre ++ b :: post ++ [l.tail]) = (pre ++ b :: post) ++ [l.tail] by simp]
        exact hwf.links)]
  · refine ⟨?_, ?_, ?_, ?_, ?_⟩
    · -- chain: head → pre → post → tail
      rw [show ((pre ++ post) ++ [l.tail]) = pre ++ (post ++ [l.tail]) by simp,
        linksTo_append]
      refine ⟨linksTo_setSucc_getLastD _ hnd_hp hpre, ?_⟩
      show linksTo (setSucc l.heap (pre.getLastD l.head) (nd l.heap b).succ)
        (pre.getLastD l.head) (post ++ [l.tail])
      have hwsucc : (nd (setSucc l.heap (pre.getLastD l.head) (nd l.heap b).succ)
          (pre.getLastD l.head)).succ = (nd l.heap b).succ := by
        rw [nd_setSucc_self _ _ _ hw_lt]
      rcases post with _ | ⟨q, qs⟩
      · exact ⟨by rw [hwsucc]; exact hbchain.2.1, trivial⟩
      · refine ⟨by rw [hwsucc]; exact hbchain.2.1, ?_⟩
        refine linksTo_congr_mem (fun x hx => ?_) hbchain.2.2
        refine congrArg _ (nd_setSucc_ne _ _ _ ?_)
        intro he
        subst he
        rcases List.mem_cons.1 hw_mem with he2 | he2
        · rcases List.mem_cons.1 hx with he3 | he3
          · refine hwf.head_notmem ?_
            have hq : q = l.head := by rw [← he3, he2]
            rw [← hq]
            simp
          · rcases List.mem_append.1 he3 with he4 | he4
            · refine hwf.head_notmem ?_
              have hm : pre.getLastD l.head ∈ pre ++ b :: q :: qs :=
                List.mem_append_right _ (List.mem_cons_of_mem _ (List.mem_cons_of_mem _ he4))
              rw [he2] at hm
              exact hm
            · refine hwf.head_ne_tail ?_
              have hGD : pre.getLastD l.head = l.tail := by simpa using he4
              exact he2.symm.trans hGD
        · rcases List.mem_cons.1 hx with he3 | he3
          · have hnd := hwf.es_nodup
            rw [List.nodup_append] at hnd
            exact hnd.2.2 he2 (by rw [he3]; simp)
          · rcases List.mem_append.1 he3 with he4 | he4
            · have hnd := hwf.es_nodup
              rw [List.nodup_append] at hnd
              exact hnd.2.2 he2
                (List.mem_cons_of_mem _ (List.mem_cons_of_mem _ he4))
            · refine hwf.tail_notmem ?_
              have hxt : pre.getLastD l.head = l.tail := by simpa using he4
              rw [← hxt]
              exact List.mem_append_left _ he2
    · rw [hwf.size]
      simp
    · show (l.head :: ((pre ++ post) ++ [l.tail])).Nodup
      refine hwf.nodup.sublist ?_
      show (l.head :: ((pre ++ post) ++ [l.tail])).Sublist
        (l.head :: ((pre ++ b :: post) ++ [l.tail]))
      refine List.Sublist.cons₂ _ ?_
      refine List.Sublist.append_right ?_ _
      refine List.Sublist.append_left ?_ _
      exact List.sublist_cons_self _ _
    · intro a ha
      rw [length_setSucc]
      refine hwf.bounds a ?_
      have hd : a = l.head ∨ a ∈ pre ∨ a ∈ post ∨ a = l.tail := by
        simp only [allAddrs, List.mem_cons, List.mem_append, List.mem_singleton] at ha
        tauto
      show a ∈ l.head :: ((pre ++ b :: post) ++ [l.tail])
      simp only [List.mem_cons, List.mem_append, List.mem_singleton]
      tauto
    · show (nd (setSucc l.heap (pre.getLastD l.head) (nd l.heap b).succ) l.tail).succ = none
      rw [nd_setSucc_ne _ _ _ (fun he => hw_ne_tail he.symm)]
      exact hwf.tailSucc
  · rw [dataOf_setSucc]
    simp [dataOf]

/-! ## erase_after characterisation -/

theorem eraseWalk1_spec (l : FList) : ∀ (rest : List Nat) (p : Option Nat) (cnt fuel : Nat),
    rest.length + 1 ≤ fuel →
    (∀ r ∈ rest, r ≠ l.tail) →
    startsChain l.heap p rest l.tail →
    eraseWalk1 l (cend l) p cnt fuel = .ok (some l.tail, cnt + rest.length)
  | [], p, cnt, fuel + 1, _, _, hsc => by
    have hp : p = some l.tail := hsc
    subst hp
    show (if some l.tail = cend l then Except.ok (some l.tail, cnt) else _) = _
    have hc : some l.tail = cend l := rfl
    rw [if_pos hc]
    simp
  | r :: rs, p, cnt, fuel + 1, hfuel, hmem, hsc => by
    obtain ⟨hp, hlk⟩ := hsc
    subst hp
    have hrt : r ≠ l.tail := hmem r (by simp)
    show (if some r = cend l then Except.ok (some r, cnt) else do
      let j2 ← iterInc l (some r)
      eraseWalk1 l (cend l) j2 (cnt + 1) fuel) = _
    rw [if_neg (by simp [cend, hrt]), iterInc_some l hrt]
    simp only [okBind]
    have hnext : startsChain l.heap (nd l.heap r).succ rs l.tail := by
      match rs, hlk with
      | [], hlk => exact hlk.1
      | s :: ss, hlk => exact ⟨hlk.1, hlk.2⟩
    rw [show cnt + (r :: rs).length = (cnt + 1) + rs.length by simp; omega]
    exact eraseWalk1_spec l rs (nd l.heap r).succ (cnt + 1) fuel
      (by simp at hfuel ⊢; omega) (fun x hx => hmem x (by simp [hx])) hnext

theorem eraseScan1_notfound (l : FList) (iter1 : Option Nat) :
    ∀ (rest : List Nat) (c : Nat) (fuel : Nat),
    rest.length + 1 ≤ fuel →
    c ≠ l.tail →
    (∀ r ∈ rest, r ≠ l.tail) →
    linksTo l.heap c (rest ++ [l.tail]) →
    (∀ r ∈ rest, iter1 ≠ some r) →
    eraseScan1 l iter1 (some c) fuel = .ok l
  | [], c, fuel + 1, _, hct, _, hlk, _ => by
    show (do
      let i1 ← iterPlus l (some c) 1
      if i1 ≠ cend l then _ else Except.ok l) = _
    rw [iterPlus_one l hct, hlk.1]
    simp only [okBind]
    rw [if_neg (by simp [cend])]
  | r :: rs, c, fuel + 1, hfuel, hct, hmem, hlk, hne => by
    have hrt : r ≠ l.tail := hmem r (by simp)
    show (do
      let i1 ← iterPlus l (some c) 1
      if i1 ≠ cend l then
        if i1 ≠ iter1 then do
          eraseScan1 l iter1 (← iterInc l (some c)) fuel
        else _
      else Except.ok l) = _
    rw [iterPlus_one l hct, hlk.1]
    simp only [okBind]
    rw [if_pos (by simp [cend, hrt]), if_pos (fun he => hne r (by simp) he.symm),
      iterInc_some l hct, hlk.1]
    simp only [okBind]
    exact eraseScan1_notfound l iter1 rs r fuel (by simp at hfuel ⊢; omega) hrt
      (fun x hx => hmem x (by simp [hx])) hlk.2 (fun x hx => hne x (by simp [hx]))

theorem eraseScan1_found (l : FList) (b : Nat) (hbt : b ≠ l.tail) :
    ∀ (pre post : List Nat) (c : Nat) (fuel : Nat),
    pre.length + 1 ≤ fuel →
    post.length + 2 ≤ l.heap.length + 1 →
    c ≠ l.tail →
    b ∉ pre →
    (∀ r ∈ pre, r ≠ l.tail) →
    (∀ r ∈ post, r ≠ l.tail) →
    linksTo l.heap c (pre ++ b :: post ++ [l.tail]) →
    eraseScan1 l (some b) (some c) fuel
      = .ok { l with heap := setSucc l.heap (pre.getLastD c) (some l.tail), size_ := l.size_ - (post.length + 1) }
  | [], post, c, fuel + 1, _, hpl, hct, _, _, hpost, hlk => by
    have hsucc : (nd l.heap c).succ = some b := hlk.1
    have hbchain : linksTo l.heap b (post ++ [l.tail]) := hlk.2
    show (do
      let i1 ← iterPlus l (some c) 1
      if i1 ≠ cend l then
        if i1 ≠ some b then do
          eraseScan1 l (some b) (← iterInc l (some c)) fuel
        else do
          let r ← eraseWalk1 l (cend l) i1 0 (l.heap.length + 1)
          match r with
          | (jf, cnt) =>
            match (some c : Option Nat) with
            | some a =>
              .ok { l with heap := setSucc l.heap a jf, size_ := l.size_ - cnt }
            | none => .error .ub
      else Except.ok l) = _
    rw [iterPlus_one l hct, hsucc]
    simp only [okBind]
    rw [if_pos (by simp [cend, hbt]), if_neg (by simp)]
    have hwalk : eraseWalk1 l (cend l) (some b) 0 (l.heap.length + 1)
        = .ok (some l.tail, 0 + (b :: post).length) := by
      refine eraseWalk1_spec l (b :: post) (some b) 0 (l.heap.length + 1)
        (by simp at hpl ⊢; omega) ?_ ⟨rfl, hbchain⟩
      intro x hx
      rcases List.mem_cons.1 hx with rfl | hm
      · exact hbt
      · exact hpost x hm
    rw [hwalk]
    simp only [okBind]
    show Except.ok _ = _
    simp
  | p :: ps, post, c, fuel + 1, hfuel, hpl, hct, hbp, hmem, hpost, hlk => by
    have hpt : p ≠ l.tail := hmem p (by simp)
    have hsucc : (nd l.heap c).succ = some p := hlk.1
    show (do
      let i1 ← iterPlus l (some c) 1
      if i1 ≠ cend l then
        if i1 ≠ some b then do
          eraseScan1 l (some b) (← iterInc l (some c)) fuel
        else _
      else Except.ok l) = _
    rw [iterPlus_one l hct, hsucc]
    simp only [okBind]
    rw [if_pos (by simp [cend, hpt]),
      if_pos (by simp; intro he; exact hbp (by simp [he])), iterInc_some l hct, hsucc]
    simp only [okBind]
    rw [eraseScan1_found l b hbt ps post p fuel (by simp at hfuel ⊢; omega) hpl hpt
      (fun hm => hbp (by simp [hm])) (fun x hx => hmem x (by simp [hx])) hpost hlk.2]
    rw [List.getLastD_cons]

/-- `erase_after(iter1)` with a cursor not referencing an element node is a
no-op. -/
theorem eraseAfter1_notfound {l : FList} {es : List Nat} (hwf : WF l es) {iter1 : Option Nat}
    (hni : ∀ r ∈ es, iter1 ≠ some r) :
    eraseAfter1 l iter1 = .ok l := by
  unfold eraseAfter1
  by_cases hsz : l.size_ = 0
  · rw [if_pos hsz]
  · rw [if_neg hsz]
    simp only [cbeforeBegin]
    exact eraseScan1_notfound l iter1 es l.head (l.heap.length + 1)
      (by have := hwf.size_lt; omega) hwf.head_ne_tail
      (fun r hr => hwf.mem_ne_tail hr) hwf.links hni

/-- `erase_after(iter1)` at the element at position `pre.length` removes that
element AND everything after it (the half-open range `[iter1, end)`). -/
theorem eraseAfter1_found {l : FList} {es : List Nat} (hwf : WF l es) {pre post : List Nat}
    {b : Nat} (hes : es = pre ++ b :: post) :
    eraseAfter1 l (some b)
      = .ok { l with heap := setSucc l.heap (pre.getLastD l.head) (some l.tail), size_ := l.size_ - (post.length + 1) } ∧
    WF { l with heap := setSucc l.heap (pre.getLastD l.head) (some l.tail), size_ := l.size_ - (post.length + 1) } pre ∧
    dataOf (setSucc l.heap (pre.getLastD l.head) (some l.tail)) pre = dataOf l.heap pre := by
  subst hes
  have hbe : b ∈ pre ++ b :: post := by simp
  have hbt : b ≠ l.tail := hwf.mem_ne_tail hbe
  have hnd_hp : (l.head :: pre).Nodup := by
    refine hwf.nodup.sublist ?_
    show (l.head :: pre).Sublist (l.head :: ((pre ++ b :: post) ++ [l.tail]))
    refine List.Sublist.cons₂ _ ?_
    refine List.sublist_append_of_sublist_left ?_
    exact List.sublist_append_left _ _
  have hbp : b ∉ pre := by
    have hnd := hwf.es_nodup
    rw [List.nodup_append] at hnd
    exact fun hm => hnd.2.2 hm (by simp)
  have hw_mem : pre.getLastD l.head ∈ l.head :: pre := by
    rcases List.eq_nil_or_concat pre with rfl | ⟨pp, q, hpq⟩
    · simp
    · rw [List.concat_eq_append] at hpq
      subst hpq
      rw [List.getLastD_concat]
      simp
  have hw_lt : pre.getLastD l.head < l.heap.length := by
    rcases List.mem_cons.1 hw_mem with he | he
    · rw [he]; exact hwf.head_lt
    · exact hwf.mem_lt (List.mem_append_left _ he)
  have hw_ne_tail : pre.getLastD l.head ≠ l.tail := by
    rcases List.mem_cons.1 hw_mem with he | he
    · rw [he]; exact hwf.head_ne_tail
    · exact fun hc => hwf.tail_notmem (hc ▸ List.mem_append_left _ he)
  have hlinks0 := hwf.links
  rw [show ((pre ++ b :: post) ++ [l.tail]) = pre ++ (b :: (post ++ [l.tail])) by simp,
    linksTo_append] at hlinks0
  have hpre : linksTo l.heap l.head pre := hlinks0.1
  refine ⟨?_, ?_, ?_⟩
  · unfold eraseAfter1
    rw [if_neg (by rw [hwf.size]; simp)]
    simp only [cbeforeBegin]
    rw [eraseScan1_found l b hbt pre post l.head (l.heap.length + 1)
      (by have := hwf.size_lt; simp at this ⊢; omega)
      (by have := hwf.size_lt; simp at this ⊢; omega)
      hwf.head_ne_tail hbp (fun r hr => hwf.mem_ne_tail (by simp [hr]))
      (fun r hr => hwf.mem_ne_tail (by simp [hr]))
      (by rw [show (pre ++ b :: post ++ [l.tail]) = (pre ++ b :: post) ++ [l.tail] by simp]
          exact hwf.links)]
  · refine ⟨?_, ?_, ?_, ?_, ?_⟩
    · exact linksTo_snoc_setSucc hnd_hp hw_lt hpre
    · rw [hwf.size]
      simp
    · show (l.head :: (pre ++ [l.tail])).Nodup
      refine hwf.nodup.sublist ?_
      show (l.head :: (pre ++ [l.tail])).Sublist (l.head :: ((pre ++ b :: post) ++ [l.tail]))
      refine List.Sublist.cons₂ _ ?_
      refine List.Sublist.append_right ?_ _
      exact List.sublist_append_left _ _
    · intro a ha
      rw [length_setSucc]
      refine hwf.bounds a ?_
      have hd : a = l.head ∨ a ∈ pre ∨ a = l.tail := by
        simp only [allAddrs, List.mem_cons, List.mem_append, List.mem_singleton] at ha
        tauto
      show a ∈ l.head :: ((pre ++ b :: post) ++ [l.tail])
      simp only [List.mem_cons, List.mem_append, List.mem_singleton]
      tauto
    · show (nd (setSucc l.heap (pre.getLastD l.head) (some l.tail)) l.tail).succ = none
      rw [nd_setSucc_ne _ _ _ (fun he => hw_ne_tail he.symm)]
      exact hwf.tailSucc
  · exact dataOf_setSucc _ _ _ _

/-- `clear()` empties the list: it calls `erase_after(cbegin())`, and the scan
finds the first element immediately (or the list is already empty). -/
theorem clearFL_spec {l : FList} {es : List Nat} (hwf : WF l es) :
    (es = [] ∧ clearFL l = .ok l) ∨
    (es ≠ [] ∧ clearFL l = .ok { l with heap := setSucc l.heap l.head (some l.tail), size_ := 0 } ∧
      WF { l with heap := setSucc l.heap l.head (some l.tail), size_ := 0 } []) := by
  match es, hwf with
  | [], hwf =>
    left
    refine ⟨rfl, ?_⟩
    unfold clearFL eraseAfter1
    rw [if_pos (by rw [hwf.size]; rfl)]
  | e :: rest, hwf =>
    right
    have hcb : cbegin l = some e := hwf.links.1
    obtain ⟨h1, h2, _⟩ := eraseAfter1_found hwf (show e :: rest = [] ++ e :: rest from rfl)
    have hsz : l.size_ - (rest.length + 1) = 0 := by
      rw [hwf.size]
      simp
    refine ⟨by simp, ?_, ?_⟩
    · show eraseAfter1 l (cbegin l) = _
      rw [hcb, h1]
      show Except.ok _ = _
      rw [show ([] : List Nat).getLastD l.head = l.head from rfl, hsz]
    · rw [show ([] : List Nat).getLastD l.head = l.head from rfl, hsz] at h2
      exact h2

/-! ## A general chain-surgery lemma and the two-cursor erase_after -/

theorem startsChain_of_linksTo {h : Heap} {r t : Nat} {xs : List Nat}
    (hl : linksTo h r (xs ++ [t])) : startsChain h (nd h r).succ xs t := by
  match xs, hl with
  | [], hl => exact hl.1
  | x :: xs2, hl => exact ⟨hl.1, hl.2⟩

/-- Redirecting the successor of the last node of `head :: pre` to the first
node of `rest` (or to the tail sentinel) unlinks the `drop` segment: the
resulting state is well-formed with element addresses `pre ++ rest`. -/
theorem WF_unlink {l : FList} {es pre drop rest : List Nat} (hwf : WF l es)
    (hes : es = pre ++ drop ++ rest) (hsz : l.size_ - drop.length = pre.length + rest.length) :
    WF { l with heap := setSucc l.heap (pre.getLastD l.head) (some (rest.headD l.tail)), size_ := l.size_ - drop.length } (pre ++ rest) ∧
    dataOf (setSucc l.heap (pre.getLastD l.head) (some (rest.headD l.tail))) (pre ++ rest)
      = dataOf l.heap (pre ++ rest) := by
  subst hes
  have hnd_hp : (l.head :: pre).Nodup := by
    refine hwf.nodup.sublist ?_
    show (l.head :: pre).Sublist (l.head :: ((pre ++ drop ++ rest) ++ [l.tail]))
    refine List.Sublist.cons₂ _ ?_
    refine List.sublist_append_of_sublist_left ?_
    refine List.sublist_append_of_sublist_left ?_
    exact List.sublist_append_left _ _
  have hw_mem : pre.getLastD l.head ∈ l.head :: pre := by
    rcases List.eq_nil_or_concat pre with rfl | ⟨pp, q, hpq⟩
    · simp
    · rw [List.concat_eq_append] at hpq
      subst hpq
      rw [List.getLastD_concat]
      simp
  have hw_lt : pre.getLastD l.head < l.heap.length := by
    rcases List.mem_cons.1 hw_mem with he | he
    · rw [he]; exact hwf.head_lt
    · exact hwf.mem_lt (List.mem_append_left _ (List.mem_append_left _ he))
  have hw_ne_tail : pre.getLastD l.head ≠ l.tail := by
    rcases List.mem_cons.1 hw_mem with he | he
    · rw [he]; exact hwf.head_ne_tail
    · exact fun hc =>
        hwf.tail_notmem (hc ▸ List.mem_append_left _ (List.mem_append_left _ he))
  have hlinks0 := hwf.links
  rw [show ((pre ++ drop ++ rest) ++ [l.tail]) = pre ++ (drop ++ (rest ++ [l.tail])) by simp,
    linksTo_append] at hlinks0
  have hpre : linksTo l.heap l.head pre := hlinks0.1
  refine ⟨⟨?_, ?_, ?_, ?_, ?_⟩, ?_⟩
  · -- the chain head → pre → rest → tail
    rw [show ((pre ++ rest) ++ [l.tail]) = pre ++ (rest ++ [l.tail]) by simp,
      linksTo_append]
    refine ⟨linksTo_setSucc_getLastD _ hnd_hp hpre, ?_⟩
    show linksTo (setSucc l.heap (pre.getLastD l.head) (some (rest.headD l.tail)))
      (pre.getLastD l.head) (rest ++ [l.tail])
    have hwsucc : (nd (setSucc l.heap (pre.getLastD l.head) (some (rest.headD l.tail)))
        (pre.getLastD l.head)).succ = some (rest.headD l.tail) := by
      rw [nd_setSucc_self _ _ _ hw_lt]
    rcases rest with _ | ⟨m, post2⟩
    · refine ⟨?_, trivial⟩
      rw [hwsucc]
      rfl
    · refine ⟨?_, ?_⟩
      · rw [hwsucc]
        rfl
      have hmchain : linksTo l.heap m (post2 ++ [l.tail]) := by
        have h2 := hlinks0.2
        rw [linksTo_append] at h2
        exact h2.2.2
      refine linksTo_congr_mem (fun x hx => ?_) hmchain
      refine congrArg _ (nd_setSucc_ne _ _ _ ?_)
      intro he
      subst he
      have hx_es_or_tail : pre.getLastD l.head ∈ m :: post2 ∨ pre.getLastD l.head = l.tail := by
        rcases List.mem_cons.1 hx with he3 | he3
        · exact Or.inl (he3 ▸ List.mem_cons_self _ _)
        · rcases List.mem_append.1 he3 with he4 | he4
          · exact Or.inl (List.mem_cons_of_mem _ he4)
          · exact Or.inr (by simpa using he4)
      rcases hx_es_or_tail with hxe | hxt
      · have hx_in_es : pre.getLastD l.head ∈ pre ++ drop ++ m :: post2 :=
          List.mem_append_right _ hxe
        rcases List.mem_cons.1 hw_mem with he2 | he2
        · refine hwf.head_notmem ?_
          rw [he2] at hx_in_es
          exact hx_in_es
        · have hnd := hwf.es_nodup
          rw [show pre ++ drop ++ m :: post2 = pre ++ (drop ++ m :: post2) by simp,
            List.nodup_append] at hnd
          exact hnd.2.2 he2 (List.mem_append_right _ hxe)
      · exact hw_ne_tail hxt
  · rw [hsz]
    simp
  · show (l.head :: ((pre ++ rest) ++ [l.tail])).Nodup
    refine hwf.nodup.sublist ?_
    show (l.head :: ((pre ++ rest) ++ [l.tail])).Sublist
      (l.head :: ((pre ++ drop ++ rest) ++ [l.tail]))
    refine List.Sublist.cons₂ _ ?_
    refine List.Sublist.append_right ?_ _
    rw [show pre ++ drop ++ rest = pre ++ (drop ++ rest) by simp]
    refine List.Sublist.append_left ?_ pre
    exact List.sublist_append_right _ _
  · intro a ha
    rw [length_setSucc]
    refine hwf.bounds a ?_
    have hd : a = l.head ∨ a ∈ pre ∨ a ∈ rest ∨ a = l.tail := by
      simp only [allAddrs, List.mem_cons, List.mem_append, List.mem_singleton] at ha
      tauto
    show a ∈ l.head :: ((pre ++ drop ++ rest) ++ [l.tail])
    simp only [List.mem_cons, List.mem_append, List.mem_singleton]
    tauto
  · show (nd (setSucc l.heap (pre.getLastD l.head) (some (rest.headD l.tail))) l.tail).succ
      = none
    rw [nd_setSucc_ne _ _ _ (fun he => hw_ne_tail he.symm)]
    exact hwf.tailSucc
  · exact dataOf_setSucc _ _ _ _

theorem eraseWalk2_toEnd (l : FList) (iter2 : Option Nat) :
    ∀ (rest : List Nat) (p : Option Nat) (cnt fuel : Nat),
    rest.length + 1 ≤ fuel →
    (∀ r ∈ rest, r ≠ l.tail) →
    (∀ r ∈ rest, iter2 ≠ some r) →
    startsChain l.heap p rest l.tail →
    eraseWalk2 l iter2 p cnt fuel = .ok (some l.tail, cnt + rest.length)
  | [], p, cnt, fuel + 1, _, _, _, hsc => by
    have hp : p = some l.tail := hsc
    subst hp
    show (if some l.tail = iter2 then Except.ok (some l.tail, cnt)
      else if some l.tail = cend l then Except.ok (some l.tail, cnt) else _) = _
    by_cases hit : some l.tail = iter2
    · rw [if_pos hit]
      simp
    · rw [if_neg hit, if_pos (show some l.tail = cend l from rfl)]
      simp
  | r :: rs, p, cnt, fuel + 1, hfuel, hmem, hni, hsc => by
    obtain ⟨hp, hlk⟩ := hsc
    subst hp
    have hrt : r ≠ l.tail := hmem r (by simp)
    show (if some r = iter2 then Except.ok (some r, cnt)
      else if some r = cend l then Except.ok (some r, cnt) else do
        let j2 ← iterInc l (some r)
        eraseWalk2 l iter2 j2 (cnt + 1) fuel) = _
    rw [if_neg (fun he => hni r (by simp) he.symm), if_neg (by simp [cend, hrt]),
      iterInc_some l hrt]
    simp only [okBind]
    rw [show cnt + (r :: rs).length = (cnt + 1) + rs.length by simp; omega]
    exact eraseWalk2_toEnd l iter2 rs _ (cnt + 1) fuel (by simp at hfuel ⊢; omega)
      (fun x hx => hmem x (by simp [hx])) (fun x hx => hni x (by simp [hx]))
      (startsChain_of_linksTo hlk)

theorem eraseWalk2_stop (l : FList) (m : Nat) :
    ∀ (pre2 post2 : List Nat) (p : Option Nat) (cnt fuel : Nat),
    pre2.length + 1 ≤ fuel →
    m ∉ pre2 →
    (∀ r ∈ pre2, r ≠ l.tail) →
    startsChain l.heap p (pre2 ++ m :: post2) l.tail →
    eraseWalk2 l (some m) p cnt fuel = .ok (some m, cnt + pre2.length)
  | [], post2, p, cnt, fuel + 1, _, _, _, hsc => by
    have hp : p = some m := hsc.1
    subst hp
    show (if some m = some m then Except.ok (some m, cnt) else _) = _
    rw [if_pos rfl]
    simp
  | r :: rs, post2, p, cnt, fuel + 1, hfuel, hm, hmem, hsc => by
    obtain ⟨hp, hlk⟩ := hsc
    subst hp
    have hrt : r ≠ l.tail := hmem r (by simp)
    have hrm : r ≠ m := fun he => hm (by simp [← he])
    show (if some r = some m then Except.ok (some r, cnt)
      else if some r = cend l then Except.ok (some r, cnt) else do
        let j2 ← iterInc l (some r)
        eraseWalk2 l (some m) j2 (cnt + 1) fuel) = _
    rw [if_neg (by simp [hrm]), if_neg (by simp [cend, hrt]), iterInc_some l hrt]
    simp only [okBind]
    rw [show cnt + (r :: rs).length = (cnt + 1) + rs.length by simp; omega]
    exact eraseWalk2_stop l m rs post2 _ (cnt + 1) fuel (by simp at hfuel ⊢; omega)
      (fun he => hm (by simp [he])) (fun x hx => hmem x (by simp [hx]))
      (startsChain_of_linksTo hlk)

theorem eraseScan2_notfound (l : FList) (iter1 iter2 : Option Nat) :
    ∀ (rest : List Nat) (c : Nat) (fuel : Nat),
    rest.length + 1 ≤ fuel →
    c ≠ l.tail →
    (∀ r ∈ rest, r ≠ l.tail) →
    linksTo l.heap c (rest ++ [l.tail]) →
    (∀ r ∈ rest, iter1 ≠ some r) →
    eraseScan2 l iter1 iter2 (some c) fuel = .ok l
  | [], c, fuel + 1, _, hct, _, hlk, _ => by
    show (do
      let i1 ← iterPlus l (some c) 1
      if i1 ≠ cend l then _ else Except.ok l) = _
    rw [iterPlus_one l hct, hlk.1]
    simp only [okBind]
    rw [if_neg (by simp [cend])]
  | r :: rs, c, fuel + 1, hfuel, hct, hmem, hlk, hne => by
    have hrt : r ≠ l.tail := hmem r (by simp)
    show (do
      let i1 ← iterPlus l (some c) 1
      if i1 ≠ cend l then
        if i1 ≠ iter1 then do
          eraseScan2 l iter1 iter2 (← iterInc l (some c)) fuel
        else _
      else Except.ok l) = _
    rw [iterPlus_one l hct, hlk.1]
    simp only [okBind]
    rw [if_pos (by simp [cend, hrt]), if_pos (fun he => hne r (by simp) he.symm),
      iterInc_some l hct, hlk.1]
    simp only [okBind]
    exact eraseScan2_notfound l iter1 iter2 rs r fuel (by simp at hfuel ⊢; omega) hrt
      (fun x hx => hmem x (by simp [hx])) hlk.2 (fun x hx => hne x (by simp [hx]))

theorem eraseScan2_found (l : FList) (b : Nat) (hbt : b ≠ l.tail) (iter2 : Option Nat)
    (jf : Option Nat) (cnt : Nat)
    (hwalk : ∀ c2 : Nat, (nd l.heap c2).succ = some b →
      eraseWalk2 l iter2 (some b) 0 (l.heap.length + 1) = .ok (jf, cnt)) :
    ∀ (pre : List Nat) (c : Nat) (fuel : Nat),
    pre.length + 1 ≤ fuel →
    c ≠ l.tail →
    b ∉ pre →
    (∀ r ∈ pre, r ≠ l.tail) →
    linksTo l.heap c (pre ++ [b]) →
    eraseScan2 l (some b) iter2 (some c) fuel
      = .ok { l with heap := setSucc l.heap (pre.getLastD c) jf, size_ := l.size_ - cnt }
  | [], c, fuel + 1, _, hct, _, _, hlk => by
    have hsucc : (nd l.heap c).succ = some b := hlk.1
    show (do
      let i1 ← iterPlus l (some c) 1
      if i1 ≠ cend l then
        if i1 ≠ some b then do
          eraseScan2 l (some b) iter2 (← iterInc l (some c)) fuel
        else do
          let r ← eraseWalk2 l iter2 i1 0 (l.heap.length + 1)
          match r with
          | (jf2, cnt2) =>
            match (some c : Option Nat) with
            | some a =>
              .ok { l with heap := setSucc l.heap a jf2, size_ := l.size_ - cnt2 }
            | none => .error .ub
      else Except.ok l) = _
    rw [iterPlus_one l hct, hsucc]
    simp only [okBind]
    rw [if_pos (by simp [cend, hbt]), if_neg (by simp), hwalk c hsucc]
    simp only [okBind]
    rfl
  | p :: ps, c, fuel + 1, hfuel, hct, hbp, hmem, hlk => by
    have hpt : p ≠ l.tail := hmem p (by simp)
    have hsucc : (nd l.heap c).succ = some p := hlk.1
    show (do
      let i1 ← iterPlus l (some c) 1
      if i1 ≠ cend l then
        if i1 ≠ some b then do
          eraseScan2 l (some b) iter2 (← iterInc l (some c)) fuel
        else _
      else Except.ok l) = _
    rw [iterPlus_one l hct, hsucc]
    simp only [okBind]
    rw [if_pos (by simp [cend, hpt]),
      if_pos (by simp; intro he; exact hbp (by simp [he])), iterInc_some l hct, hsucc]
    simp only [okBind]
    rw [eraseScan2_found l b hbt iter2 jf cnt hwalk ps p fuel (by simp at hfuel ⊢; omega)
      hpt (fun hm => hbp (by simp [hm])) (fun x hx => hmem x (by simp [hx])) hlk.2]
    rw [List.getLastD_cons]

/-- `erase_after(iter1, iter2)` when `iter1` is not an element node: no-op. -/
theorem eraseAfter2_notfound {l : FList} {es : List Nat} (hwf : WF l es)
    {iter1 : Option Nat} (iter2 : Option Nat) (hni : ∀ r ∈ es, iter1 ≠ some r) :
    eraseAfter2 l iter1 iter2 = .ok l := by
  unfold eraseAfter2
  by_cases hsz : l.size_ = 0
  · rw [if_pos hsz]
  · rw [if_neg hsz]
    simp only [cbeforeBegin]
    exact eraseScan2_notfound l iter1 iter2 es l.head (l.heap.length + 1)
      (by have := hwf.size_lt; omega) hwf.head_ne_tail
      (fun r hr => hwf.mem_ne_tail hr) hwf.links hni

theorem linksTo_firstSeg {l : FList} {es : List Nat} (hwf : WF l es) {pre rest2 : List Nat}
    {b : Nat} (hes : es = pre ++ b :: rest2) : linksTo l.heap l.head (pre ++ [b]) := by
  have hl := hwf.links
  rw [hes, show ((pre ++ b :: rest2) ++ [l.tail]) = (pre ++ [b]) ++ (rest2 ++ [l.tail])
    by simp, linksTo_append] at hl
  exact hl.1

theorem linksTo_lastSeg {l : FList} {es : List Nat} (hwf : WF l es) {pre rest2 : List Nat}
    {b : Nat} (hes : es = pre ++ b :: rest2) : linksTo l.heap b (rest2 ++ [l.tail]) := by
  have hl := hwf.links
  rw [hes, show ((pre ++ b :: rest2) ++ [l.tail]) = pre ++ (b :: (rest2 ++ [l.tail]))
    by simp, linksTo_append] at hl
  exact hl.2.2

/-- `erase_after(iter1, iter2)` when `iter1` is the element at position
`pre.length` and `iter2` is not among the nodes from `iter1` onward: removes
everything from `iter1` (inclusive) to the end. -/
theorem eraseAfter2_found_toEnd {l : FList} {es : List Nat} (hwf : WF l es)
    {pre post : List Nat} {b : Nat} (hes : es = pre ++ b :: post) {iter2 : Option Nat}
    (hni : ∀ r ∈ b :: post, iter2 ≠ some r) :
    eraseAfter2 l (some b) iter2
      = .ok { l with heap := setSucc l.heap (pre.getLastD l.head) (some l.tail), size_ := l.size_ - (post.length + 1) } ∧
    WF { l with heap := setSucc l.heap (pre.getLastD l.head) (some l.tail), size_ := l.size_ - (post.length + 1) } pre ∧
    dataOf (setSucc l.heap (pre.getLastD l.head) (some l.tail)) pre = dataOf l.heap pre := by
  have hbe : b ∈ es := by rw [hes]; simp
  have hbt : b ≠ l.tail := hwf.mem_ne_tail hbe
  have hbp : b ∉ pre := by
    have hnd := hwf.es_nodup
    rw [hes, List.nodup_append] at hnd
    exact fun hm => hnd.2.2 hm (by simp)
  have hwalk : ∀ c2 : Nat, (nd l.heap c2).succ = some b →
      eraseWalk2 l iter2 (some b) 0 (l.heap.length + 1)
        = .ok (some l.tail, 0 + (b :: post).length) := by
    intro c2 _
    refine eraseWalk2_toEnd l iter2 (b :: post) (some b) 0 (l.heap.length + 1)
      (by have := hwf.size_lt; rw [hes] at this; simp at this ⊢; omega)
      (fun x hx => hwf.mem_ne_tail (by rw [hes]; exact List.mem_append_right _ hx))
      (fun x hx => hni x hx) ⟨rfl, linksTo_lastSeg hwf hes⟩
  have hsz2 : l.size_ - (b :: post).length = pre.length + ([] : List Nat).length := by
    rw [hwf.size, hes]
    simp
  obtain ⟨hwfr, hdata⟩ := WF_unlink hwf
    (show es = pre ++ (b :: post) ++ [] by rw [hes]; simp) hsz2
  have hexec : eraseAfter2 l (some b) iter2
      = .ok { l with heap := setSucc l.heap (pre.getLastD l.head) (some l.tail), size_ := l.size_ - (post.length + 1) } := by
    unfold eraseAfter2
    rw [if_neg (by rw [hwf.size, hes]; simp)]
    simp only [cbeforeBegin]
    rw [eraseScan2_found l b hbt iter2 (some l.tail) (0 + (b :: post).length) hwalk pre
      l.head (l.heap.length + 1)
      (by have := hwf.size_lt; rw [hes] at this; simp at this ⊢; omega)
      hwf.head_ne_tail hbp
      (fun r hr => hwf.mem_ne_tail (by rw [hes]; exact List.mem_append_left _ hr))
      (linksTo_firstSeg hwf hes)]
    show Except.ok _ = _
    simp
  refine ⟨hexec, ?_, ?_⟩
  · have heq : l.size_ - (post.length + 1) = l.size_ - (b :: post).length := by simp
    rw [heq]
    simpa using hwfr
  · simpa using hdata

/-- `erase_after(iter1, iter2)` with both cursors on element nodes (`iter2`
after `iter1`): removes exactly `[iter1, iter2)`. -/
theorem eraseAfter2_found_stop {l : FList} {es : List Nat} (hwf : WF l es)
    {pre mid post : List Nat} {b m : Nat} (hes : es = pre ++ b :: mid ++ m :: post) :
    eraseAfter2 l (some b) (some m)
      = .ok { l with heap := setSucc l.heap (pre.getLastD l.head) (some m), size_ := l.size_ - (mid.length + 1) } ∧
    WF { l with heap := setSucc l.heap (pre.getLastD l.head) (some m), size_ := l.size_ - (mid.length + 1) } (pre ++ m :: post) ∧
    dataOf (setSucc l.heap (pre.getLastD l.head) (some m)) (pre ++ m :: post)
      = dataOf l.heap (pre ++ m :: post) := by
  have hes2 : es = pre ++ (b :: mid) ++ (m :: post) := hes
  have hbe : b ∈ es := by rw [hes]; simp
  have hbt : b ≠ l.tail := hwf.mem_ne_tail hbe
  have hbp : b ∉ pre := by
    have hnd := hwf.es_nodup
    rw [hes, List.nodup_append] at hnd
    have hnd1 := hnd.1
    rw [List.nodup_append] at hnd1
    exact fun hm => hnd1.2.2 hm (by simp)
  have hm_notin : m ∉ b :: mid := by
    have hnd := hwf.es_nodup
    rw [hes, List.nodup_append] at hnd
    exact fun hmm => hnd.2.2 (List.mem_append_right _ hmm) (by simp)
  have hwalk : ∀ c2 : Nat, (nd l.heap c2).succ = some b →
      eraseWalk2 l (some m) (some b) 0 (l.heap.length + 1)
        = .ok (some m, 0 + (b :: mid).length) := by
    intro c2 _
    refine eraseWalk2_stop l m (b :: mid) post (some b) 0 (l.heap.length + 1)
      (by have := hwf.size_lt; rw [hes] at this; simp at this ⊢; omega)
      hm_notin
      (fun x hx => hwf.mem_ne_tail (by
        rw [hes]
        exact List.mem_append_left _ (List.mem_append_right _ hx)))
      ?_
    have hlast : linksTo l.heap b ((mid ++ m :: post) ++ [l.tail]) := by
      have := linksTo_lastSeg hwf
        (show es = pre ++ b :: (mid ++ m :: post) by rw [hes]; simp)
      simpa using this
    exact ⟨rfl, by simpa using hlast⟩
  have hsz2 : l.size_ - (b :: mid).length = pre.length + (m :: post).length := by
    rw [hwf.size, hes]
    simp
    omega
  obtain ⟨hwfr, hdata⟩ := WF_unlink hwf hes2 hsz2
  have hexec : eraseAfter2 l (some b) (some m)
      = .ok { l with heap := setSucc l.heap (pre.getLastD l.head) (some m), size_ := l.size_ - (mid.length + 1) } := by
    unfold eraseAfter2
    rw [if_neg (by rw [hwf.size, hes]; simp)]
    simp only [cbeforeBegin]
    rw [eraseScan2_found l b hbt (some m) (some m) (0 + (b :: mid).length) hwalk pre
      l.head (l.heap.length + 1)
      (by have := hwf.size_lt; rw [hes] at this; simp at this ⊢; omega)
      hwf.head_ne_tail hbp
      (fun r hr => hwf.mem_ne_tail (by
        rw [hes]
        exact List.mem_append_left _ (List.mem_append_left _ hr)))
      (linksTo_firstSeg hwf (show es = pre ++ b :: (mid ++ m :: post) by rw [hes]; simp))]
    show Except.ok _ = _
    simp
  refine ⟨hexec, ?_, ?_⟩
  · have heq : l.size_ - (mid.length + 1) = l.size_ - (b :: mid).length := by simp
    rw [heq]
    simpa using hwfr
  · simpa using hdata

/-! ## insert_after characterisation -/

theorem insertLoop_spec (e : Int) : ∀ (n : Nat) (h : Heap) (t : Nat), t < h.length →
    (insertLoop h t e n).length = h.length + n ∧
    (∀ a, a < h.length → a ≠ t → nd (insertLoop h t e n) a = nd h a) ∧
    (∀ w, (nd h t).succ = some w →
      linksTo (insertLoop h t e n) t (List.range' h.length n ++ [w])) ∧
    (∀ a ∈ List.range' h.length n, (nd (insertLoop h t e n) a).data = e) ∧
    (nd (insertLoop h t e n) t).data = (nd h t).data
  | 0, h, t, _ => by
    refine ⟨by simp [insertLoop], fun a _ _ => rfl, fun w hw => ?_, by simp, rfl⟩
    exact ⟨hw, trivial⟩
  | n + 1, h, t, ht => by
    have hL : h.length < (h ++ [(⟨e, (nd h t).succ⟩ : Node)]).length := by simp
    have h1len : (h ++ [(⟨e, (nd h t).succ⟩ : Node)]).length = h.length + 1 := by simp
    have h2len : (setSucc (h ++ [⟨e, (nd h t).succ⟩]) t (some h.length)).length
        = h.length + 1 := by rw [length_setSucc, h1len]
    have hfreshnode : nd (h ++ [(⟨e, (nd h t).succ⟩ : Node)]) h.length
        = ⟨e, (nd h t).succ⟩ := by
      unfold nd
      rw [List.getD_eq_getElem?_getD, List.getElem?_append_right (by omega)]
      simp
    have hfresh2 : nd (setSucc (h ++ [⟨e, (nd h t).succ⟩]) t (some h.length)) h.length
        = ⟨e, (nd h t).succ⟩ := by
      rw [nd_setSucc_ne _ _ _ (by omega), hfreshnode]
    obtain ⟨ih1, ih2, ih3, ih4, ih5⟩ := insertLoop_spec e n
      (setSucc (h ++ [⟨e, (nd h t).succ⟩]) t (some h.length)) h.length (by omega)
    simp only [h2len] at ih1 ih2 ih3 ih4
    have hstep : insertLoop h t e (n + 1)
        = insertLoop (setSucc (h ++ [⟨e, (nd h t).succ⟩]) t (some h.length)) h.length e n :=
      rfl
    rw [hstep]
    refine ⟨by rw [ih1]; omega, ?_, ?_, ?_, ?_⟩
    · intro a ha hat
      rw [ih2 a (by omega) (by omega), nd_setSucc_ne _ _ _ hat, nd_append_lt _ _ ha]
    · intro w hw
      rw [List.range'_succ]
      show (nd (insertLoop _ h.length e n) t).succ = some h.length ∧
        linksTo (insertLoop _ h.length e n) h.length (List.range' (h.length + 1) n ++ [w])
      constructor
      · rw [ih2 t (by omega) (by omega), nd_setSucc_self _ _ _ (by omega)]
      · refine ih3 w ?_
        rw [hfresh2]
        exact hw
    · intro a ha
      rw [List.range'_succ] at ha
      rcases List.mem_cons.1 ha with rfl | ha2
      · rw [ih5, hfresh2]
      · exact ih4 a ha2
    · rw [ih2 t (by omega) (by omega), nd_setSucc_self _ _ _ (by omega),
        nd_append_lt _ _ ht]


theorem pushBackN_spec (e : Int) : ∀ (n : Nat) (l : FList) (es : List Nat), WF l es →
    ∃ es2, WF (pushBackN l e n) es2 ∧
      dataOf (pushBackN l e n).heap es2 = dataOf l.heap es ++ List.replicate n e
  | 0, l, es, hwf => ⟨es, hwf, by
      show dataOf l.heap es = dataOf l.heap es ++ List.replicate 0 e
      simp⟩
  | n + 1, l, es, hwf => by
    obtain ⟨hwf2, hdata2⟩ := pushBack_spec hwf e
    obtain ⟨es2, ih1, ih2⟩ := pushBackN_spec e n (pushBack l e) (es ++ [l.tail]) hwf2
    have hstep : pushBackN l e (n + 1) = pushBackN (pushBack l e) e n := rfl
    rw [hstep]
    refine ⟨es2, ih1, ?_⟩
    rw [ih2, hdata2]
    simp [List.replicate_succ]

theorem insertScan_here (l : FList) (t : Nat) (e : Int) (n : Nat) {w : Nat}
    (htt : t ≠ l.tail) (hsucc : (nd l.heap t).succ = some w) (hwt : w ≠ l.tail) :
    ∀ fuel, 1 ≤ fuel →
    insertScan l (some t) e n (some t) fuel
      = .ok { l with heap := insertLoop l.heap t e n, size_ := l.size_ + n } := by
  intro fuel hfuel
  match fuel, hfuel with
  | fuel + 1, _ =>
    show (do
      let i1 ← iterPlus l (some t) 1
      if i1 ≠ cend l then
        if (some t : Option Nat) = some t then
          .ok { l with heap := insertLoop l.heap t e n, size_ := l.size_ + n }
        else do
          insertScan l (some t) e n (← iterInc l (some t)) fuel
      else .ok (pushBackN l e n)) = _
    rw [iterPlus_one l htt, hsucc]
    simp only [okBind]
    simp [cend, hwt]

theorem insertScan_found (l : FList) (t : Nat) (e : Int) (n : Nat) {w : Nat}
    (htt : t ≠ l.tail) (hsucc : (nd l.heap t).succ = some w) (hwt : w ≠ l.tail) :
    ∀ (mids : List Nat) (c : Nat) (fuel : Nat),
    mids.length + 2 ≤ fuel →
    c ≠ l.tail → (∀ r ∈ mids, r ≠ l.tail) →
    c ≠ t → t ∉ mids →
    linksTo l.heap c (mids ++ [t]) →
    insertScan l (some t) e n (some c) fuel
      = .ok { l with heap := insertLoop l.heap t e n, size_ := l.size_ + n }
  | [], c, fuel + 1, hfuel, hct, _, hcnet, _, hlk => by
    have hsc : (nd l.heap c).succ = some t := hlk.1
    show (do
      let i1 ← iterPlus l (some c) 1
      if i1 ≠ cend l then
        if (some c : Option Nat) = some t then _
        else do
          insertScan l (some t) e n (← iterInc l (some c)) fuel
      else .ok (pushBackN l e n)) = _
    rw [iterPlus_one l hct, hsc]
    simp only [okBind]
    rw [if_pos (by simp [cend, htt]), if_neg (by simp [hcnet]), iterInc_some l hct, hsc]
    simp only [okBind]
    exact insertScan_here l t e n htt hsucc hwt fuel (by omega)
  | m :: ms, c, fuel + 1, hfuel, hct, hmem, hcnet, htm, hlk => by
    have hmt : m ≠ l.tail := hmem m (by simp)
    have hsc : (nd l.heap c).succ = some m := hlk.1
    show (do
      let i1 ← iterPlus l (some c) 1
      if i1 ≠ cend l then
        if (some c : Option Nat) = some t then _
        else do
          insertScan l (some t) e n (← iterInc l (some c)) fuel
      else .ok (pushBackN l e n)) = _
    rw [iterPlus_one l hct, hsc]
    simp only [okBind]
    rw [if_pos (by simp [cend, hmt]), if_neg (by simp [hcnet]), iterInc_some l hct, hsc]
    simp only [okBind]
    exact insertScan_found l t e n htt hsucc hwt ms m fuel (by simp at hfuel ⊢; omega) hmt
      (fun x hx => hmem x (by simp [hx])) (fun he => htm (by simp [← he]))
      (fun hm2 => htm (by simp [hm2])) hlk.2

theorem insertScan_notfound (l : FList) (iter : Option Nat) (e : Int) (n : Nat) :
    ∀ (rest : List Nat) (c : Nat) (fuel : Nat),
    rest.length + 1 ≤ fuel →
    c ≠ l.tail → (∀ r ∈ rest, r ≠ l.tail) →
    linksTo l.heap c (rest ++ [l.tail]) →
    (rest ≠ [] → iter ≠ some c) →
    (∀ x ∈ rest.dropLast, iter ≠ some x) →
    insertScan l iter e n (some c) fuel = .ok (pushBackN l e n)
  | [], c, fuel + 1, _, hct, _, hlk, _, _ => by
    show (do
      let i1 ← iterPlus l (some c) 1
      if i1 ≠ cend l then _ else .ok (pushBackN l e n)) = _
    rw [iterPlus_one l hct, hlk.1]
    simp only [okBind]
    rw [if_neg (by simp [cend])]
  | r :: rs, c, fuel + 1, hfuel, hct, hmem, hlk, hnc, hnd => by
    have hrt : r ≠ l.tail := hmem r (by simp)
    show (do
      let i1 ← iterPlus l (some c) 1
      if i1 ≠ cend l then
        if (some c : Option Nat) = iter then _
        else do
          insertScan l iter e n (← iterInc l (some c)) fuel
      else .ok (pushBackN l e n)) = _
    rw [iterPlus_one l hct, hlk.1]
    simp only [okBind]
    rw [if_pos (by simp [cend, hrt]), if_neg (fun he => hnc (by simp) he.symm),
      iterInc_some l hct, hlk.1]
    simp only [okBind]
    refine insertScan_notfound l iter e n rs r fuel (by simp at hfuel ⊢; omega) hrt
      (fun x hx => hmem x (by simp [hx])) hlk.2 (fun hne => ?_) (fun x hx => ?_)
    · refine hnd r ?_
      rw [List.dropLast_cons_of_ne_nil hne]
      simp
    · refine hnd x ?_
      rcases List.eq_nil_or_concat rs with rfl | ⟨rr, q, hq⟩
      · simp at hx
      · rw [List.concat_eq_append] at hq
        subst hq
        rw [List.dropLast_concat] at hx
        have hdl : (r :: (rr ++ [q])).dropLast = r :: rr := by
          rw [show r :: (rr ++ [q]) = (r :: rr) ++ [q] by simp, List.dropLast_concat]
        rw [hdl]
        exact List.mem_cons_of_mem _ hx

theorem dataOf_append (h : Heap) (xs ys : List Nat) :
    dataOf h (xs ++ ys) = dataOf h xs ++ dataOf h ys := List.map_append _ _ _

theorem getLastD_eq_getLast {P : List Nat} (hne : P ≠ []) (d : Nat) :
    P.getLastD d = P.getLast hne := by
  induction P generalizing d with
  | nil => exact absurd rfl hne
  | cons a as ih =>
    cases as with
    | nil => rfl
    | cons b bs => rw [List.getLastD_cons, List.getLast_cons (by simp), ih (by simp)]

theorem nodup_getLastD_notmem_dropLast {P : List Nat} (hne : P ≠ []) (hnd : P.Nodup)
    (d : Nat) : P.getLastD d ∉ P.dropLast := by
  intro hmem
  have hP : P.dropLast ++ [P.getLast hne] = P := List.dropLast_append_getLast hne
  rw [← hP, List.nodup_append] at hnd
  refine hnd.2.2 hmem ?_
  rw [getLastD_eq_getLast hne d]
  simp

/-- `insert_after` when the cursor is found by the scan: `es = P ++ Q`, the
cursor sits at the last node of `P` (or at `head` when `P = []`), and `Q ≠ []`
(the scan stops one node before the tail, so a cursor at the last element is
never matched). The `n` fresh nodes are spliced between `P` and `Q`. -/
theorem insertAfter_found {l : FList} {es : List Nat} (hwf : WF l es)
    {P Q : List Nat} (hes : es = P ++ Q) (hQ : Q ≠ []) {t : Nat}
    (ht : t = P.getLastD l.head) (e : Int) {n : Nat} (hn : n ≠ 0) :
    insertAfterFL l (some t) e n
      = .ok { l with heap := insertLoop l.heap t e n, size_ := l.size_ + n } ∧
    WF { l with heap := insertLoop l.heap t e n, size_ := l.size_ + n }
      (P ++ List.range' l.heap.length n ++ Q) ∧
    dataOf (insertLoop l.heap t e n) (P ++ List.range' l.heap.length n ++ Q)
      = dataOf l.heap P ++ List.replicate n e ++ dataOf l.heap Q := by
  obtain ⟨q, Q', rfl⟩ : ∃ q Q', Q = q :: Q' := by
    cases Q with
    | nil => exact absurd rfl hQ
    | cons q Q' => exact ⟨q, Q', rfl⟩
  have hlinks := hwf.links
  rw [hes, List.append_assoc] at hlinks
  obtain ⟨hlkP, hlkQ⟩ := linksTo_append.1 hlinks
  rw [← ht] at hlkQ
  have hsucc : (nd l.heap t).succ = some q := hlkQ.1
  have hq_mem : q ∈ es := by rw [hes]; exact List.mem_append_right _ (by simp)
  have hqt : q ≠ l.tail := hwf.mem_ne_tail hq_mem
  have ht_mem : t = l.head ∨ t ∈ es := by
    cases P with
    | nil => exact Or.inl ht
    | cons p0 P' =>
      refine Or.inr ?_
      rw [hes, ht, getLastD_eq_getLast (by simp) _]
      exact List.mem_append_left _ (List.getLast_mem _)
  have ht_lt : t < l.heap.length := by
    rcases ht_mem with rfl | hmem
    · exact hwf.head_lt
    · exact hwf.mem_lt hmem
  have ht_ne_tail : t ≠ l.tail := by
    rcases ht_mem with rfl | hmem
    · exact hwf.head_ne_tail
    · exact hwf.mem_ne_tail hmem
  have hnd2 : (P ++ q :: Q').Nodup := hes ▸ hwf.es_nodup
  have hPnd : P.Nodup := (List.nodup_append.1 hnd2).1
  have hPdisj : P.Disjoint (q :: Q') := (List.nodup_append.1 hnd2).2.2
  have ht_notQ : t ∉ q :: Q' := by
    cases P with
    | nil =>
      simp only [List.getLastD_nil] at ht
      subst ht
      intro hc
      refine hwf.head_notmem ?_
      rw [hes]
      exact List.mem_append_right _ hc
    | cons p0 P' =>
      refine hPdisj ?_
      rw [ht, getLastD_eq_getLast (by simp) _]
      exact List.getLast_mem _
  have hscan : insertScan l (some t) e n (some l.head) (l.heap.length + 1)
      = .ok { l with heap := insertLoop l.heap t e n, size_ := l.size_ + n } := by
    cases P with
    | nil =>
      simp only [List.getLastD_nil] at ht
      subst ht
      exact insertScan_here l _ e n ht_ne_tail hsucc hqt _ (by omega)
    | cons p0 P' =>
      have hPne : (p0 :: P') ≠ [] := by simp
      have hmids : (p0 :: P').dropLast ++ [t] = p0 :: P' := by
        rw [ht, getLastD_eq_getLast hPne]
        exact List.dropLast_append_getLast hPne
      have htP : t ∈ p0 :: P' := by
        rw [ht, getLastD_eq_getLast hPne]
        exact List.getLast_mem _
      refine insertScan_found l t e n ht_ne_tail hsucc hqt (p0 :: P').dropLast l.head
        (l.heap.length + 1) ?_ hwf.head_ne_tail ?_ ?_ ?_ ?_
      · have h1 := hwf.size_lt
        have h2 : es.length = (p0 :: P').length + (q :: Q').length := by
          rw [hes]
          simp only [List.cons_append, List.length_cons, List.length_append]
          omega
        simp only [List.length_dropLast, List.length_cons] at h2 ⊢
        omega
      · intro r hr
        refine hwf.mem_ne_tail ?_
        rw [hes]
        exact List.mem_append_left _ (List.dropLast_subset _ hr)
      · intro he
        refine hwf.head_notmem ?_
        rw [hes]
        exact List.mem_append_left _ (he ▸ htP)
      · exact fun hc => nodup_getLastD_notmem_dropLast hPne hPnd l.head (ht ▸ hc)
      · rw [hmids]
        exact hlkP
  have hmain : insertAfterFL l (some t) e n
      = .ok { l with heap := insertLoop l.heap t e n, size_ := l.size_ + n } := by
    show (if n = 0 then Except.ok l
      else insertScan l (some t) e n (cbeforeBegin l) (l.heap.length + 1)) = _
    rw [if_neg hn]
    exact hscan
  obtain ⟨s1, s2, s3, s4, s5⟩ := insertLoop_spec e n l.heap t ht_lt
  have s3q := s3 q hsucc
  refine ⟨hmain, ⟨?lk, ?sz, ?nodup, ?bounds, ?ts⟩, ?data⟩
  case lk =>
    show linksTo (insertLoop l.heap t e n) l.head
      ((P ++ List.range' l.heap.length n ++ (q :: Q')) ++ [l.tail])
    have hshape : (P ++ List.range' l.heap.length n ++ (q :: Q')) ++ [l.tail]
        = P ++ ((List.range' l.heap.length n ++ [q]) ++ (Q' ++ [l.tail])) := by
      simp [List.append_assoc]
    rw [hshape]
    refine linksTo_append.2 ⟨?_, ?_⟩
    · cases P with
      | nil => trivial
      | cons p0 P' =>
        refine linksTo_congr (fun x hx => ?_) hlkP
        have hxok : x < l.heap.length ∧ x ≠ t := by
          rcases List.mem_cons.1 hx with rfl | hx2
          · refine ⟨hwf.head_lt, fun he => ?_⟩
            have htP : t ∈ p0 :: P' := by
              rw [ht, getLastD_eq_getLast (by simp : (p0 :: P') ≠ []) _]
              exact List.getLast_mem _
            refine hwf.head_notmem ?_
            rw [hes]
            exact List.mem_append_left _ (he ▸ htP)
          · refine ⟨hwf.mem_lt ?_, fun he => ?_⟩
            · rw [hes]
              exact List.mem_append_left _ (List.dropLast_subset _ hx2)
            · exact nodup_getLastD_notmem_dropLast (by simp) hPnd l.head (ht ▸ he ▸ hx2)
        rw [s2 x hxok.1 hxok.2]
    · rw [← ht]
      refine linksTo_append.2 ⟨s3q, ?_⟩
      rw [List.getLastD_concat]
      refine linksTo_congr (fun x hx => ?_) hlkQ.2
      have hx2 : x ∈ q :: Q' := by
        rw [List.dropLast_concat] at hx
        exact hx
      have hxe : x ∈ es := by
        rw [hes]
        exact List.mem_append_right _ hx2
      rw [s2 x (hwf.mem_lt hxe) (fun he => ht_notQ (he ▸ hx2))]
  case sz =>
    show l.size_ + n = (P ++ List.range' l.heap.length n ++ (q :: Q')).length
    rw [hwf.size, hes]
    simp only [List.length_append, List.length_range', List.length_cons]
    omega
  case nodup =>
    show (l.head :: ((P ++ List.range' l.heap.length n ++ (q :: Q')) ++ [l.tail])).Nodup
    have hpermAll : List.Perm
        (l.head :: ((P ++ List.range' l.heap.length n ++ (q :: Q')) ++ [l.tail]))
        ((l.head :: ((P ++ (q :: Q')) ++ [l.tail])) ++ List.range' l.heap.length n) := by
      have h1 : (P ++ List.range' l.heap.length n ++ (q :: Q')) ++ [l.tail]
          = P ++ List.range' l.heap.length n ++ ((q :: Q') ++ [l.tail]) := by
        simp [List.append_assoc]
      have h2 : (l.head :: ((P ++ (q :: Q')) ++ [l.tail])) ++ List.range' l.heap.length n
          = l.head :: ((P ++ ((q :: Q') ++ [l.tail])) ++ List.range' l.heap.length n) := by
        simp [List.append_assoc]
      rw [h1, h2]
      refine List.Perm.cons l.head ?_
      rw [List.append_assoc, List.append_assoc]
      exact List.Perm.append_left P List.perm_append_comm
    refine hpermAll.nodup_iff.2 ?_
    rw [List.nodup_append]
    refine ⟨?_, List.nodup_range' _ _, ?_⟩
    · have hsame : l.head :: ((P ++ (q :: Q')) ++ [l.tail]) = allAddrs l es := by
        rw [hes, allAddrs]
      rw [hsame]
      exact hwf.nodup
    · intro a ha hr
      have h1 : a < l.heap.length := by
        refine hwf.bounds a ?_
        rw [allAddrs, hes]
        exact ha
      have h2 := (List.mem_range'_1.1 hr).1
      omega
  case bounds =>
    intro a ha
    have ha1 : a ∈ l.head
        :: ((P ++ List.range' l.heap.length n ++ (q :: Q')) ++ [l.tail]) := ha
    show a < (insertLoop l.heap t e n).length
    rw [s1]
    rcases List.mem_cons.1 ha1 with rfl | ha2
    · have := hwf.head_lt
      omega
    · rcases List.mem_append.1 ha2 with ha3 | ha4
      · rcases List.mem_append.1 ha3 with ha5 | hQ2
        · rcases List.mem_append.1 ha5 with hP | hR
          · have hae : a ∈ es := by rw [hes]; exact List.mem_append_left _ hP
            have := hwf.mem_lt hae
            omega
          · have := (List.mem_range'_1.1 hR).2
            omega
        · have hae : a ∈ es := by rw [hes]; exact List.mem_append_right _ hQ2
          have := hwf.mem_lt hae
          omega
      · have ha5 : a = l.tail := by simpa using ha4
        subst ha5
        have := hwf.tail_lt
        omega
  case ts =>
    show (nd (insertLoop l.heap t e n) l.tail).succ = none
    rw [s2 l.tail hwf.tail_lt (fun he => ht_ne_tail he.symm)]
    exact hwf.tailSucc
  case data =>
    rw [dataOf_append, dataOf_append]
    have hdP : dataOf (insertLoop l.heap t e n) P = dataOf l.heap P := by
      unfold dataOf
      refine List.map_congr_left fun a ha => ?_
      rcases eq_or_ne a t with rfl | hne
      · rw [s5]
      · rw [s2 a (hwf.mem_lt (by rw [hes]; exact List.mem_append_left _ ha)) hne]
    have hdR : dataOf (insertLoop l.heap t e n) (List.range' l.heap.length n)
        = List.replicate n e := by
      unfold dataOf
      rw [List.eq_replicate_iff]
      refine ⟨by simp [List.length_range'], ?_⟩
      intro b hb
      obtain ⟨a, ha, rfl⟩ := List.mem_map.1 hb
      exact s4 a ha
    have hdQ : dataOf (insertLoop l.heap t e n) (q :: Q') = dataOf l.heap (q :: Q') := by
      unfold dataOf
      refine List.map_congr_left fun a ha => ?_
      have hae : a ∈ es := by rw [hes]; exact List.mem_append_right _ ha
      rw [s2 a (hwf.mem_lt hae) (fun he => ht_notQ (he ▸ ha))]
    rw [hdP, hdR, hdQ]

/-- `insert_after` when the cursor is never matched by the scan (the scanned
nodes are `head` and all elements but the last): fall back to repeated
`push_back`. -/
theorem insertAfter_notfound {l : FList} {es : List Nat} (hwf : WF l es)
    {iter : Option Nat} (hmiss : es ≠ [] → ∀ x ∈ l.head :: es.dropLast, iter ≠ some x)
    (e : Int) {n : Nat} (hn : n ≠ 0) :
    insertAfterFL l iter e n = .ok (pushBackN l e n) := by
  show (if n = 0 then Except.ok l
    else insertScan l iter e n (cbeforeBegin l) (l.heap.length + 1)) = _
  rw [if_neg hn]
  refine insertScan_notfound l iter e n es l.head (l.heap.length + 1)
    (by have := hwf.size_lt; omega) hwf.head_ne_tail
    (fun r hr => hwf.mem_ne_tail hr) hwf.links
    (fun hne => hmiss hne l.head (by simp)) (fun x hx => ?_)
  have hne : es ≠ [] := by rintro rfl; simp at hx
  exact hmiss hne x (List.mem_cons_of_mem _ hx)

theorem insertAfter_zero (l : FList) (iter : Option Nat) (e : Int) :
    insertAfterFL l iter e 0 = .ok l := rfl

/-- `push_front` always prepends: when the list is empty the scan falls back
to a single `push_back`, otherwise the cursor at `head` is matched first. -/
theorem pushFront_spec {l : FList} {es : List Nat} (hwf : WF l es) (e : Int) :
    ∃ l2 es2, pushFront l e = .ok l2 ∧ WF l2 es2 ∧
      dataOf l2.heap es2 = e :: dataOf l.heap es := by
  by_cases hes : es = []
  · subst hes
    have heq : insertAfterFL l (some l.head) e 1 = .ok (pushBackN l e 1) :=
      insertAfter_notfound hwf (fun hne => absurd rfl hne) e one_ne_zero
    obtain ⟨es2, h1, h2⟩ := pushBackN_spec e 1 l [] hwf
    refine ⟨pushBackN l e 1, es2, heq, h1, ?_⟩
    rw [h2]
    rfl
  · obtain ⟨heq, hWF, hdata⟩ :=
      insertAfter_found (P := []) (Q := es) hwf (by simp) hes rfl e one_ne_zero
    refine ⟨_, _, heq, hWF, ?_⟩
    rw [hdata]
    rfl

theorem goodPops_le : ∀ (ops : List QOp) (xs : List Int),
    goodPops xs ops ≤ xs.length + pushCount ops
  | [], _ => Nat.zero_le _
  | .push e :: ops, xs => by
    show goodPops (xs ++ [e]) ops ≤ xs.length + (pushCount ops + 1)
    have := goodPops_le ops (xs ++ [e])
    simp only [List.length_append, List.length_singleton] at this
    omega
  | .popF :: ops, xs => by
    show (if xs = [] then 0 else 1) + goodPops xs.tail ops ≤ xs.length + pushCount ops
    have := goodPops_le ops xs.tail
    rcases eq_or_ne xs ([] : List Int) with rfl | hne
    · simpa using this
    · rw [if_neg hne]
      have hlen : xs.tail.length = xs.length - 1 := by simp
      have hpos : 0 < xs.length := List.length_pos.2 hne
      omega
  | .popB :: ops, xs => by
    show (if xs = [] then 0 else 1) + goodPops xs.dropLast ops ≤ xs.length + pushCount ops
    have := goodPops_le ops xs.dropLast
    rcases eq_or_ne xs ([] : List Int) with rfl | hne
    · simpa using this
    · rw [if_neg hne]
      have hlen : xs.dropLast.length = xs.length - 1 := by simp
      have hpos : 0 < xs.length := List.length_pos.2 hne
      omega

theorem absOps_length : ∀ (ops : List QOp) (xs : List Int),
    (absOps xs ops).length = xs.length + pushCount ops - goodPops xs ops
  | [], xs => by simp [absOps, pushCount, goodPops]
  | .push e :: ops, xs => by
    show (absOps (xs ++ [e]) ops).length
      = xs.length + (pushCount ops + 1) - goodPops (xs ++ [e]) ops
    rw [absOps_length ops (xs ++ [e])]
    simp only [List.length_append, List.length_singleton]
    omega
  | .popF :: ops, xs => by
    show (absOps xs.tail ops).length
      = xs.length + pushCount ops - ((if xs = [] then 0 else 1) + goodPops xs.tail ops)
    rw [absOps_length ops xs.tail]
    have hb := goodPops_le ops xs.tail
    rcases eq_or_ne xs ([] : List Int) with rfl | hne
    · simp
    · rw [if_neg hne]
      have hlen : xs.tail.length = xs.length - 1 := by simp
      have hpos : 0 < xs.length := List.length_pos.2 hne
      omega
  | .popB :: ops, xs => by
    show (absOps xs.dropLast ops).length
      = xs.length + pushCount ops - ((if xs = [] then 0 else 1) + goodPops xs.dropLast ops)
    rw [absOps_length ops xs.dropLast]
    have hb := goodPops_le ops xs.dropLast
    rcases eq_or_ne xs ([] : List Int) with rfl | hne
    · simp
    · rw [if_neg hne]
      have hlen : xs.dropLast.length = xs.length - 1 := by simp
      have hpos : 0 < xs.length := List.length_pos.2 hne
      omega

theorem absOps_sublist : ∀ (ops : List QOp) (xs ys : List Int), xs.Sublist ys →
    (absOps xs ops).Sublist (ys ++ pushedElems ops)
  | [], xs, ys, h => by simpa [absOps, pushedElems] using h
  | .push e :: ops, xs, ys, h => by
    show (absOps (xs ++ [e]) ops).Sublist (ys ++ (e :: pushedElems ops))
    have h2 : (xs ++ [e]).Sublist (ys ++ [e]) := h.append (List.Sublist.refl _)
    have h3 := absOps_sublist ops (xs ++ [e]) (ys ++ [e]) h2
    rw [List.append_assoc] at h3
    simpa using h3
  | .popF :: ops, xs, ys, h =>
    absOps_sublist ops xs.tail ys ((List.tail_sublist xs).trans h)
  | .popB :: ops, xs, ys, h =>
    absOps_sublist ops xs.dropLast ys ((List.dropLast_sublist xs).trans h)

theorem absOps_no_pops : ∀ (ops : List QOp) (xs : List Int), popCount ops = 0 →
    absOps xs ops = xs ++ pushedElems ops
  | [], xs, _ => by simp [absOps, pushedElems]
  | .push e :: ops, xs, h => by
    show absOps (xs ++ [e]) ops = xs ++ (e :: pushedElems ops)
    rw [absOps_no_pops ops (xs ++ [e]) h, List.append_assoc]
    rfl
  | .popF :: ops, _, h => by simp [popCount] at h
  | .popB :: ops, _, h => by simp [popCount] at h

/-- Simulation: a push/pop workload on a well-formed list runs without error
and its element sequence follows the abstract queue semantics. -/
theorem runOps_spec : ∀ (ops : List QOp) (l : FList) (es : List Nat), WF l es →
    ∃ l2 es2, runOps l ops = .ok l2 ∧ WF l2 es2 ∧
      dataOf l2.heap es2 = absOps (dataOf l.heap es) ops
  | [], l, es, hwf => ⟨l, es, rfl, hwf, rfl⟩
  | .push e :: ops, l, es, hwf => by
    obtain ⟨hwf2, hdata⟩ := pushBack_spec hwf e
    obtain ⟨l2, es2, h1, h2, h3⟩ := runOps_spec ops (pushBack l e) (es ++ [l.tail]) hwf2
    refine ⟨l2, es2, ?_, h2, ?_⟩
    · show (do
        let x ← runOp l (QOp.push e)
        runOps x ops) = Except.ok l2
      rw [show runOp l (QOp.push e) = Except.ok (pushBack l e) from rfl]
      simp only [okBind]
      exact h1
    · rw [h3, hdata]
      rfl
  | .popF :: ops, l, es, hwf => by
    rcases popFront_spec hwf with ⟨hes, heq⟩ | ⟨e0, rest, hes, heq, hwf2⟩
    · subst hes
      obtain ⟨l2, es2, h1, h2, h3⟩ := runOps_spec ops l [] hwf
      refine ⟨l2, es2, ?_, h2, ?_⟩
      · show (do
          let x ← runOp l QOp.popF
          runOps x ops) = Except.ok l2
        rw [show runOp l QOp.popF = popFront l from rfl, heq]
        simp only [okBind]
        exact h1
      · rw [h3]
        rfl
    · subst hes
      obtain ⟨l2, es2, h1, h2, h3⟩ := runOps_spec ops _ rest hwf2
      refine ⟨l2, es2, ?_, h2, ?_⟩
      · show (do
          let x ← runOp l QOp.popF
          runOps x ops) = Except.ok l2
        rw [show runOp l QOp.popF = popFront l from rfl, heq]
        simp only [okBind]
        exact h1
      · rw [h3]
        rfl
  | .popB :: ops, l, es, hwf => by
    rcases popBack_spec hwf with ⟨hes, heq⟩ | ⟨hne, heq, hwf2, hdata⟩
    · subst hes
      obtain ⟨l2, es2, h1, h2, h3⟩ := runOps_spec ops l [] hwf
      refine ⟨l2, es2, ?_, h2, ?_⟩
      · show (do
          let x ← runOp l QOp.popB
          runOps x ops) = Except.ok l2
        rw [show runOp l QOp.popB = popBack l from rfl, heq]
        simp only [okBind]
        exact h1
      · rw [h3]
        rfl
    · obtain ⟨l2, es2, h1, h2, h3⟩ := runOps_spec ops _ es.dropLast hwf2
      refine ⟨l2, es2, ?_, h2, ?_⟩
      · show (do
          let x ← runOp l QOp.popB
          runOps x ops) = Except.ok l2
        rw [show runOp l QOp.popB = popBack l from rfl, heq]
        simp only [okBind]
        exact h1
      · rw [h3]
        show absOps (dataOf (setSucc l.heap (es.dropLast.getLastD l.head) (some l.tail)) es.dropLast) ops = _
        rw [hdata]
        rfl

theorem walkSucc_linksTo {h : Heap} : ∀ {cs : List Nat} {a : Nat}, linksTo h a cs →
    walkSucc h (some a) cs.length = .ok (some (cs.getLastD a))
  | [], _, _ => rfl
  | c :: cs, a, hlk => by
    show walkSucc h (nd h a).succ cs.length = .ok (some ((c :: cs).getLastD a))
    rw [hlk.1, List.getLastD_cons]
    exact walkSucc_linksTo hlk.2

/-- From well-formedness: `size + 1` successor steps from `head` reach
`tail` (one step enters the first element, `size` more pass the rest). -/
theorem WF.walk_tail {l : FList} {es : List Nat} (hwf : WF l es) :
    walkSucc l.heap (some l.head) (l.size_ + 1) = .ok (some l.tail) := by
  have h1 := walkSucc_linksTo hwf.links
  rw [List.length_append, List.length_singleton, List.getLastD_concat] at h1
  rw [hwf.size]
  exact h1

/-- `assign` on a cursor at element address `b` overwrites that element's
data in place; the chain, the size and every other element are untouched. -/
theorem assignFL_spec {l : FList} {es : List Nat} (hwf : WF l es) {pre post : List Nat}
    {b : Nat} (hes : es = pre ++ b :: post) (e : Int) :
    assignFL l (some b) e = .ok { l with heap := setData l.heap b e } ∧
    WF { l with heap := setData l.heap b e } es ∧
    dataOf (setData l.heap b e) es
      = dataOf l.heap pre ++ e :: dataOf l.heap post := by
  have hb : b ∈ es := by rw [hes]; exact List.mem_append_right _ (by simp)
  have hbh : b ≠ l.head := hwf.mem_ne_head hb
  have hbt : b ≠ l.tail := hwf.mem_ne_tail hb
  refine ⟨?_, ⟨?_, ?_, ?_, ?_, ?_⟩, ?_⟩
  · unfold assignFL
    simp only []
    rw [if_neg hbh, if_neg hbt]
  · exact linksTo_congr_mem (fun x _ => succ_setData _ _ _ _) hwf.links
  · exact hwf.size
  · exact hwf.nodup
  · intro a ha
    rw [length_setData]
    exact hwf.bounds a ha
  · show (nd (setData l.heap b e) l.tail).succ = none
    rw [succ_setData]
    exact hwf.tailSucc
  · have hnd : (pre ++ b :: post).Nodup := hes ▸ hwf.es_nodup
    have hdisj := (List.nodup_append.1 hnd).2.2
    have hbpost : b ∉ post :=
      (List.nodup_cons.1 (List.nodup_append.1 hnd).2.1).1
    rw [hes, dataOf_append]
    have h1 : dataOf (setData l.heap b e) pre = dataOf l.heap pre :=
      dataOf_setData_notmem _ _ _ (fun hc => hdisj hc (by simp))
    have h2 : dataOf (setData l.heap b e) (b :: post) = e :: dataOf l.heap post := by
      show (nd (setData l.heap b e) b).data :: dataOf (setData l.heap b e) post = _
      rw [nd_setData_self _ _ _ (hwf.mem_lt hb), dataOf_setData_notmem _ _ _ hbpost]
    rw [h1, h2]

/-- `erase_after(iter1, iter1)` with both cursors at the same found element
node: the walk stops immediately, nothing is removed, and the predecessor is
relinked to the value its successor field already had. -/
theorem eraseAfter2_found_self {l : FList} {es : List Nat} (hwf : WF l es)
    {pre post : List Nat} {b : Nat} (hes : es = pre ++ b :: post) :
    eraseAfter2 l (some b) (some b)
      = .ok { l with heap := setSucc l.heap (pre.getLastD l.head) (some b), size_ := l.size_ - 0 } ∧
    WF { l with heap := setSucc l.heap (pre.getLastD l.head) (some b), size_ := l.size_ - 0 } es ∧
    dataOf (setSucc l.heap (pre.getLastD l.head) (some b)) es = dataOf l.heap es := by
  have hbe : b ∈ es := by rw [hes]; simp
  have hbt : b ≠ l.tail := hwf.mem_ne_tail hbe
  have hbp : b ∉ pre := by
    have hnd := hwf.es_nodup
    rw [hes, List.nodup_append] at hnd
    exact fun hm => hnd.2.2 hm (by simp)
  have hsz : l.size_ ≠ 0 := by
    rw [hwf.size, hes]
    simp
  have hwalk : ∀ c2 : Nat, (nd l.heap c2).succ = some b →
      eraseWalk2 l (some b) (some b) 0 (l.heap.length + 1) = .ok (some b, 0) := by
    intro c2 _
    have h0 := eraseWalk2_stop l b [] post (some b) 0 (l.heap.length + 1)
      (by simp only [List.length_nil]; omega)
      (by simp) (by simp) ⟨rfl, linksTo_lastSeg hwf hes⟩
    simpa using h0
  have heq : eraseAfter2 l (some b) (some b) = .ok { l with heap := setSucc l.heap (pre.getLastD l.head) (some b), size_ := l.size_ - 0 } := by
    unfold eraseAfter2
    rw [if_neg hsz]
    simp only [cbeforeBegin]
    exact eraseScan2_found l b hbt (some b) (some b) 0 hwalk pre l.head (l.heap.length + 1)
      (by have h1 := hwf.size_lt; rw [hes] at h1; simp at h1; omega) hwf.head_ne_tail hbp
      (fun r hr => hwf.mem_ne_tail (by rw [hes]; exact List.mem_append_left _ hr))
      (linksTo_firstSeg hwf hes)
  have hprev_succ : (nd l.heap (pre.getLastD l.head)).succ = some b :=
    (linksTo_append.1 (linksTo_firstSeg hwf hes)).2.1
  have hpres : ∀ x : Nat,
      (nd (setSucc l.heap (pre.getLastD l.head) (some b)) x).succ = (nd l.heap x).succ := by
    intro x
    rcases eq_or_ne x (pre.getLastD l.head) with he | hx
    · rw [he]
      by_cases hlt : pre.getLastD l.head < l.heap.length
      · rw [nd_setSucc_self _ _ _ hlt]
        exact hprev_succ.symm
      · unfold setSucc
        rw [List.set_eq_of_length_le (by omega)]
    · rw [nd_setSucc_ne _ _ _ hx]
  refine ⟨heq, ⟨?_, ?_, ?_, ?_, ?_⟩, dataOf_setSucc _ _ _ _⟩
  · exact linksTo_congr (fun x _ => hpres x) hwf.links
  · show l.size_ - 0 = es.length
    have h1 := hwf.size
    omega
  · exact hwf.nodup
  · intro a ha
    rw [length_setSucc]
    exact hwf.bounds a ha
  · show (nd (setSucc l.heap (pre.getLastD l.head) (some b)) l.tail).succ = none
    rw [hpres]
    exact hwf.tailSucc

/-! ## Cursor-agnostic well-formedness preservation -/

theorem eraseAfter1_wf {l : FList} {es : List Nat} (hwf : WF l es) (iter1 : Option Nat) :
    ∃ l2 es2, eraseAfter1 l iter1 = .ok l2 ∧ WF l2 es2 := by
  rcases Classical.em (∃ b, iter1 = some b ∧ b ∈ es) with ⟨b, rfl, hbe⟩ | hmiss
  · obtain ⟨pre, post, hes, _⟩ := mem_split_first hbe
    obtain ⟨h1, h2, _⟩ := eraseAfter1_found hwf hes
    exact ⟨_, _, h1, h2⟩
  · have hni : ∀ r ∈ es, iter1 ≠ some r := fun r hr he => hmiss ⟨r, he, hr⟩
    exact ⟨l, es, eraseAfter1_notfound hwf hni, hwf⟩

theorem eraseAfter2_wf {l : FList} {es : List Nat} (hwf : WF l es)
    (iter1 iter2 : Option Nat) :
    ∃ l2 es2, eraseAfter2 l iter1 iter2 = .ok l2 ∧ WF l2 es2 := by
  rcases Classical.em (∃ b, iter1 = some b ∧ b ∈ es) with ⟨b, rfl, hbe⟩ | hmiss
  · obtain ⟨pre, post, hes, _⟩ := mem_split_first hbe
    rcases Classical.em (∃ m, iter2 = some m ∧ m ∈ b :: post) with ⟨m, rfl, hme⟩ | hmiss2
    · rcases List.mem_cons.1 hme with rfl | hmp
      · obtain ⟨h1, h2, _⟩ := eraseAfter2_found_self hwf hes
        exact ⟨_, es, h1, h2⟩
      · obtain ⟨mid, post2, hps, _⟩ := mem_split_first hmp
        obtain ⟨h1, h2, _⟩ := eraseAfter2_found_stop hwf
          (show es = pre ++ b :: mid ++ m :: post2 by rw [hes, hps]; simp [List.append_assoc])
        exact ⟨_, _, h1, h2⟩
    · have hni2 : ∀ r ∈ b :: post, iter2 ≠ some r := fun r hr he => hmiss2 ⟨r, he, hr⟩
      obtain ⟨h1, h2, _⟩ := eraseAfter2_found_toEnd hwf hes hni2
      exact ⟨_, _, h1, h2⟩
  · have hni : ∀ r ∈ es, iter1 ≠ some r := fun r hr he => hmiss ⟨r, he, hr⟩
    exact ⟨l, es, eraseAfter2_notfound hwf iter2 hni, hwf⟩

theorem removeAt_wf {l : FList} {es : List Nat} (hwf : WF l es) (iter : Option Nat) :
    ∃ r o l2 es2, removeAt l iter = .ok (r, o, l2) ∧ WF l2 es2 := by
  rcases Classical.em (∃ b, iter = some b ∧ b ∈ es) with ⟨b, rfl, hbe⟩ | hmiss
  · obtain ⟨pre, post, hes, _⟩ := mem_split_first hbe
    obtain ⟨h1, h2, _⟩ := removeAt_found hwf hes
    exact ⟨_, _, _, _, h1, h2⟩
  · have hni : ∀ r ∈ es, iter ≠ some r := fun r hr he => hmiss ⟨r, he, hr⟩
    exact ⟨_, _, _, es, removeAt_notfound hwf hni, hwf⟩

theorem insertAfter_wf {l : FList} {es : List Nat} (hwf : WF l es) (iter : Option Nat)
    (e : Int) (n : Nat) :
    ∃ l2 es2, insertAfterFL l iter e n = .ok l2 ∧ WF l2 es2 := by
  rcases Nat.eq_zero_or_pos n with rfl | hn
  · exact ⟨l, es, insertAfter_zero l iter e, hwf⟩
  have hn2 : n ≠ 0 := by omega
  by_cases hes : es = []
  · subst hes
    obtain ⟨es2, h1, _⟩ := pushBackN_spec e n l [] hwf
    exact ⟨_, es2, insertAfter_notfound hwf (fun hne => absurd rfl hne) e hn2, h1⟩
  rcases Classical.em (∃ x ∈ l.head :: es.dropLast, iter = some x) with ⟨x, hx, rfl⟩ | hmiss
  · rcases List.mem_cons.1 hx with rfl | hx2
    · obtain ⟨h1, h2, _⟩ := insertAfter_found (P := []) (Q := es) hwf (by simp) hes rfl e hn2
      exact ⟨_, _, h1, h2⟩
    · obtain ⟨last, est, hsplit⟩ : ∃ c est, es = est ++ [c] := by
        rcases List.eq_nil_or_concat es with rfl | ⟨est, c, h⟩
        · exact absurd rfl hes
        · rw [List.concat_eq_append] at h
          exact ⟨c, est, h⟩
      subst hsplit
      rw [List.dropLast_concat] at hx2
      obtain ⟨pre, post2, rfl, _⟩ := mem_split_first hx2
      obtain ⟨h1, h2, _⟩ := insertAfter_found (P := pre ++ [x]) (Q := post2 ++ [last]) hwf
        (by simp) (by simp) (by rw [List.getLastD_concat]) e hn2
      exact ⟨_, _, h1, h2⟩
  · have hni : es ≠ [] → ∀ x ∈ l.head :: es.dropLast, iter ≠ some x :=
      fun _ x hx he => hmiss ⟨x, hx, he⟩
    obtain ⟨es2, h1, _⟩ := pushBackN_spec e n l es hwf
    exact ⟨_, es2, insertAfter_notfound hwf hni e hn2, h1⟩

/-! ## The claims -/

/-- C1: the specification claims `sort(true)` always produces a list on which
`sorted(true)` returns `true`.  The code refutes this: sorting
`[9, 8, 5, 4, 5]` yields the element sequence `[4, 5, 8, 9, 5]`, on which
`sorted(true)` returns `false` — after the `h = pre_end;` dead store,
`_inplace_merge` returns the wrong boundary marker on duplicate keys, so the
recursive merge sort splices blocks out of order. -/
theorem C1_sort_leaves_list_unsorted :
    (sortFL (mkList [9, 8, 5, 4, 5]) true).map
        (fun l => ((toListE l).toOption, (sortedFL l true).toOption))
      = .ok (some [4, 5, 8, 9, 5], some false) := by decide

/-- C2: the specification claims `merge` of sorted lists of sizes `m` and `n`
yields size `m + n`, taking the receiver's element first on equal keys.  The
code's equality branch appends the receiver's node but advances BOTH chains,
silently dropping the argument's element: merging `[1]` into `[1]` yields
`[1]` with size `1`, not `[1, 1]` with size `2`. -/
theorem C2_merge_drops_tied_element :
    (mergeFL (mkList [1]) (mkList [1]) true).map
        (fun l => ((toListE l).toOption, l.size_))
      = .ok (some [1], 1) := by decide

/-- C3: the specification claims `unique()` on `[1, 2, 3, 3, 3, 4, 7, 7, 10]`
yields `[1, 2, 3, 4, 7, 10]`.  The code's inner loop executes
`i.node->succ = (i + 2).node->succ`, which unlinks TWO nodes per step while
decrementing the size once; in the checked build the resulting walk runs
past the tail sentinel and raises the overflow error. -/
theorem C3_unique_overflow_on_scenario :
    uniqueFL (mkList [1, 2, 3, 3, 3, 4, 7, 7, 10]) = .error .overflow := by decide

/-- C4 is refuted as stated: on the freshly built one-element list, `size`
successor steps from `head` land on the element node (address 1), not the
tail sentinel (address 2), because `head` is the before-begin sentinel.
Moreover even `size + 1` steps fail after `unique()`: on
`[1, 2, 3, 3, 3, 4, 7, 7]` the walk falls off a null successor while the
tail sentinel sits at address 9. -/
theorem C4_counterexample :
    (mkList [5]).size_ = 1 ∧
    walkSucc (mkList [5]).heap (some (mkList [5]).head) (mkList [5]).size_
      = .ok (some 1) ∧
    (mkList [5]).tail = 2 ∧
    (uniqueFL (mkList [1, 2, 3, 3, 3, 4, 7, 7])).map
        (fun l => (walkSucc l.heap (some l.head) (l.size_ + 1), l.tail))
      = .ok (.ok none, 9) := by decide

/-- C4 (amended): `head` is the before-begin sentinel, so it takes `size + 1`
successor steps (not `size`) to reach `tail`.  This corrected invariant holds
for every well-formed list and is preserved by push_back, push_front,
insert_after, pop_front, pop_back, remove_at, both erase_after overloads,
assign and clear — but not by unique, which unlinks two nodes per duplicate
while decrementing the size once. -/
theorem C4_size_chain_invariant :
    (∀ (l : FList) (es : List Nat), WF l es →
      walkSucc l.heap (some l.head) (l.size_ + 1) = .ok (some l.tail)) ∧
    (∀ (l : FList) (es : List Nat) (e : Int), WF l es →
      WF (pushBack l e) (es ++ [l.tail])) ∧
    (∀ (l : FList) (es : List Nat) (e : Int), WF l es →
      ∃ l2 es2, pushFront l e = .ok l2 ∧ WF l2 es2) ∧
    (∀ (l : FList) (es : List Nat) (iter : Option Nat) (e : Int) (n : Nat), WF l es →
      ∃ l2 es2, insertAfterFL l iter e n = .ok l2 ∧ WF l2 es2) ∧
    (∀ (l : FList) (es : List Nat), WF l es →
      ∃ l2 es2, popFront l = .ok l2 ∧ WF l2 es2) ∧
    (∀ (l : FList) (es : List Nat), WF l es →
      ∃ l2 es2, popBack l = .ok l2 ∧ WF l2 es2) ∧
    (∀ (l : FList) (es : List Nat) (iter : Option Nat), WF l es →
      ∃ r o l2 es2, removeAt l iter = .ok (r, o, l2) ∧ WF l2 es2) ∧
    (∀ (l : FList) (es : List Nat) (iter1 : Option Nat), WF l es →
      ∃ l2 es2, eraseAfter1 l iter1 = .ok l2 ∧ WF l2 es2) ∧
    (∀ (l : FList) (es : List Nat) (iter1 iter2 : Option Nat), WF l es →
      ∃ l2 es2, eraseAfter2 l iter1 iter2 = .ok l2 ∧ WF l2 es2) ∧
    (∀ (l : FList) (es pre post : List Nat) (b : Nat) (e : Int), WF l es →
      es = pre ++ b :: post →
      ∃ l2 es2, assignFL l (some b) e = .ok l2 ∧ WF l2 es2) ∧
    (∀ (l : FList) (es : List Nat), WF l es →
      ∃ l2, clearFL l = .ok l2 ∧ WF l2 []) := by
  refine ⟨?_, ?_, ?_, ?_, ?_, ?_, ?_, ?_, ?_, ?_, ?_⟩
  · exact fun l es hwf => hwf.walk_tail
  · exact fun l es e hwf => (pushBack_spec hwf e).1
  · intro l es e hwf
    obtain ⟨l2, es2, h1, h2, _⟩ := pushFront_spec hwf e
    exact ⟨l2, es2, h1, h2⟩
  · exact fun l es iter e n hwf => insertAfter_wf hwf iter e n
  · intro l es hwf
    rcases popFront_spec hwf with ⟨hes, heq⟩ | ⟨e0, rest, hes, heq, hwf2⟩
    · exact ⟨l, es, heq, hwf⟩
    · exact ⟨_, rest, heq, hwf2⟩
  · intro l es hwf
    rcases popBack_spec hwf with ⟨hes, heq⟩ | ⟨hne, heq, hwf2, _⟩
    · exact ⟨l, es, heq, hwf⟩
    · exact ⟨_, _, heq, hwf2⟩
  · exact fun l es iter hwf => removeAt_wf hwf iter
  · exact fun l es iter1 hwf => eraseAfter1_wf hwf iter1
  · exact fun l es iter1 iter2 hwf => eraseAfter2_wf hwf iter1 iter2
  · intro l es pre post b e hwf hes
    obtain ⟨h1, h2, _⟩ := assignFL_spec hwf hes e
    exact ⟨_, es, h1, h2⟩
  · intro l es hwf
    rcases clearFL_spec hwf with ⟨hes, heq⟩ | ⟨hne, heq, hwf2⟩
    · subst hes
      exact ⟨l, heq, hwf⟩
    · exact ⟨_, heq, hwf2⟩

/-- Witness: the amended invariant evaluated on the list `[1, 2]`. -/
theorem C4_size_chain_invariant_witness :
    walkSucc (mkList [1, 2]).heap (some (mkList [1, 2]).head)
        ((mkList [1, 2]).size_ + 1)
      = .ok (some (mkList [1, 2]).tail) :=
  C4_size_chain_invariant.1 (mkList [1, 2]) [1, 2] (by decide)

/-- C5 is refuted: on `[1, 2, 3]` with the cursor at the second element
(address 2), `erase_after` removes that element itself as well, leaving `[1]`
with size 1 instead of the claimed `[1, 2]`. -/
theorem C5_counterexample :
    (eraseAfter1 (mkList [1, 2, 3]) (some 2)).map
        (fun l => ((toListE l).toOption, l.size_))
      = .ok (some [1], 1) := by decide

/-- C5 (amended): both erase_after overloads remove the element at `iter1`
ITSELF together with the elements after it — through the end for the
one-cursor form, and up to but excluding `iter2` for the two-cursor form;
elements strictly before `iter1`, and from `iter2` on, are untouched. -/
theorem C5_erase_after_inclusive :
    (∀ (l : FList) (es pre post : List Nat) (b : Nat), WF l es →
      es = pre ++ b :: post →
      ∃ l2, eraseAfter1 l (some b) = .ok l2 ∧ WF l2 pre ∧
        dataOf l2.heap pre = dataOf l.heap pre) ∧
    (∀ (l : FList) (es pre mid post : List Nat) (b m : Nat), WF l es →
      es = pre ++ b :: mid ++ m :: post →
      ∃ l2, eraseAfter2 l (some b) (some m) = .ok l2 ∧ WF l2 (pre ++ m :: post) ∧
        dataOf l2.heap (pre ++ m :: post) = dataOf l.heap (pre ++ m :: post)) := by
  constructor
  · intro l es pre post b hwf hes
    obtain ⟨h1, h2, h3⟩ := eraseAfter1_found hwf hes
    exact ⟨_, h1, h2, h3⟩
  · intro l es pre mid post b m hwf hes
    obtain ⟨h1, h2, h3⟩ := eraseAfter2_found_stop hwf hes
    exact ⟨_, h1, h2, h3⟩

/-- Witness: erasing from the second element of `[1, 2, 3]` keeps `[1]`;
erasing the range between the second and fourth element of `[1, 2, 3, 4]`
keeps the first and fourth. -/
theorem C5_erase_after_inclusive_witness :
    (∃ l2, eraseAfter1 (mkList [1, 2, 3]) (some 2) = .ok l2 ∧ WF l2 [1] ∧
      dataOf l2.heap [1] = dataOf (mkList [1, 2, 3]).heap [1]) ∧
    (∃ l2, eraseAfter2 (mkList [1, 2, 3, 4]) (some 2) (some 4) = .ok l2 ∧
      WF l2 ([1] ++ 4 :: []) ∧
      dataOf l2.heap ([1] ++ 4 :: [])
        = dataOf (mkList [1, 2, 3, 4]).heap ([1] ++ 4 :: [])) :=
  ⟨C5_erase_after_inclusive.1 (mkList [1, 2, 3]) [1, 2, 3] [1] [3] 2
      (by decide) (by decide),
   C5_erase_after_inclusive.2 (mkList [1, 2, 3, 4]) [1, 2, 3, 4] [1] [3] [] 2 4
      (by decide) (by decide)⟩

/-- C6: the specification (restating the function's own documentation) says
`search(8, true)` on the ascending list `[5, 7, 9]` returns the cursor at the
last element `<= 8` — the second element.  The code's comparisons are
inverted, and it returns `before_begin` (the head sentinel, address 0)
instead. -/
theorem C6_search_inverted_comparisons :
    searchFL (mkList [5, 7, 9]) 8 true = .ok (some (mkList [5, 7, 9]).head) ∧
    cbeforeBegin (mkList [5, 7, 9]) = some 0 ∧
    (nd (mkList [5, 7, 9]).heap 2).data = 7 := by decide

/-- C7 is refuted: `clear()` on `[1]` empties the list, while
`erase_after(before_begin())` on the same list is a no-op that keeps `[1]`. -/
theorem C7_counterexample :
    (clearFL (mkList [1])).map (fun l => ((toListE l).toOption, l.size_))
      = .ok (some [], 0) ∧
    (eraseAfter1 (mkList [1]) (cbeforeBegin (mkList [1]))).map
        (fun l => ((toListE l).toOption, l.size_))
      = .ok (some [1], 1) := by decide

/-- C7 (amended): `clear()` is `erase_after(cbegin())` — and empties the list
because this erase is inclusive of its cursor; `erase_after(before_begin())`
is a no-op, since the scan compares `i + 1` against the cursor and `i + 1`
never equals the before-begin node. -/
theorem C7_clear_vs_erase_before_begin :
    ∀ (l : FList) (es : List Nat), WF l es →
      clearFL l = eraseAfter1 l (cbegin l) ∧
      (∃ l2, clearFL l = .ok l2 ∧ WF l2 [] ∧ l2.size_ = 0) ∧
      eraseAfter1 l (cbeforeBegin l) = .ok l := by
  intro l es hwf
  refine ⟨rfl, ?_, ?_⟩
  · rcases clearFL_spec hwf with ⟨hes, heq⟩ | ⟨hne, heq, hwf2⟩
    · subst hes
      exact ⟨l, heq, hwf, hwf.size⟩
    · exact ⟨_, heq, hwf2, rfl⟩
  · refine eraseAfter1_notfound hwf ?_
    intro r hr he
    have h2 : l.head = r := Option.some.inj he
    exact hwf.head_notmem (h2 ▸ hr)

/-- Witness: the amended equivalence evaluated on the list `[1]`. -/
theorem C7_clear_vs_erase_before_begin_witness :
    clearFL (mkList [1]) = eraseAfter1 (mkList [1]) (cbegin (mkList [1])) ∧
    (∃ l2, clearFL (mkList [1]) = .ok l2 ∧ WF l2 [] ∧ l2.size_ = 0) ∧
    eraseAfter1 (mkList [1]) (cbeforeBegin (mkList [1])) = .ok (mkList [1]) :=
  C7_clear_vs_erase_before_begin (mkList [1]) [1] (by decide)

/-- C8: every interleaving of push_back, pop_front and pop_back starting from
the empty list runs without error; iterating front to back yields exactly the
abstract queue contents — a subsequence of the pushed elements in insertion
order, and exactly the pushed elements when there are no pops — and the size
field equals the number of pushes minus the number of successful pops. -/
theorem C8_pushback_workloads :
    ∀ ops : List QOp, ∃ l2 es2,
      runOps emptyFL ops = .ok l2 ∧ WF l2 es2 ∧
      toListE l2 = .ok (absOps [] ops) ∧
      (absOps [] ops).Sublist (pushedElems ops) ∧
      (popCount ops = 0 → absOps [] ops = pushedElems ops) ∧
      l2.size_ = pushCount ops - goodPops [] ops := by
  intro ops
  obtain ⟨l2, es2, h1, h2, h3⟩ := runOps_spec ops emptyFL [] emptyFL_wf
  refine ⟨l2, es2, h1, h2, ?_, ?_, ?_, ?_⟩
  · rw [toListE_spec h2, h3]
    rfl
  · have h4 := absOps_sublist ops [] [] (List.Sublist.refl _)
    simpa using h4
  · intro hpc
    have h5 := absOps_no_pops ops [] hpc
    simpa using h5
  · rw [h2.size]
    have h6 : es2.length = (dataOf l2.heap es2).length := by
      unfold dataOf
      rw [List.length_map]
    rw [h6, h3]
    show (absOps [] ops).length = pushCount ops - goodPops [] ops
    have h7 := absOps_length ops []
    simpa using h7

/-- Witness: the workload push 1, push 2, pop_front, push 3, pop_back leaves
the single element `[2]` with size 1 = 3 pushes - 2 successful pops. -/
theorem C8_pushback_workloads_witness :
    ∃ l2 es2,
      runOps emptyFL [QOp.push 1, QOp.push 2, QOp.popF, QOp.push 3, QOp.popB]
        = .ok l2 ∧ WF l2 es2 ∧
      toListE l2 = .ok (absOps [] [QOp.push 1, QOp.push 2, QOp.popF, QOp.push 3, QOp.popB]) ∧
      (absOps [] [QOp.push 1, QOp.push 2, QOp.popF, QOp.push 3, QOp.popB]).Sublist
        (pushedElems [QOp.push 1, QOp.push 2, QOp.popF, QOp.push 3, QOp.popB]) ∧
      (popCount [QOp.push 1, QOp.push 2, QOp.popF, QOp.push 3, QOp.popB] = 0 →
        absOps [] [QOp.push 1, QOp.push 2, QOp.popF, QOp.push 3, QOp.popB]
          = pushedElems [QOp.push 1, QOp.push 2, QOp.popF, QOp.push 3, QOp.popB]) ∧
      l2.size_ = pushCount [QOp.push 1, QOp.push 2, QOp.popF, QOp.push 3, QOp.popB]
        - goodPops [] [QOp.push 1, QOp.push 2, QOp.popF, QOp.push 3, QOp.popB] :=
  C8_pushback_workloads [QOp.push 1, QOp.push 2, QOp.popF, QOp.push 3, QOp.popB]

/-- C9: on `[1, 2]` the mutable `back()` scans to the last element (address 2,
whose advance-by-one is `end`), but the const overload returns `head->succ` —
the FIRST element (address 1), whose advance-by-one is the second element,
not `end`.  The const overload contradicts the claim (its body is that of
`front`). -/
theorem C9_const_back_returns_front :
    backM (mkList [1, 2]) = .ok (some 2) ∧
    iterPlus (mkList [1, 2]) (some 2) 1 = .ok (cend (mkList [1, 2])) ∧
    backC (mkList [1, 2]) = some 1 ∧
    iterPlus (mkList [1, 2]) (some 1) 1 = .ok (some 2) ∧
    some 2 ≠ cend (mkList [1, 2]) := by decide

/-- C10: `remove_at` with a cursor that is not one of the list's element
nodes (the end / tail sentinel, the before-begin / head sentinel, a null
cursor, or a cursor into some other list) returns the tail sentinel's data
with the flag false and the receiver completely unchanged. -/
theorem C10_remove_at_foreign_cursor_noop :
    ∀ (l : FList) (es : List Nat) (iter : Option Nat), WF l es →
      (∀ r ∈ es, iter ≠ some r) →
      removeAt l iter = .ok ((nd l.heap l.tail).data, false, l) :=
  fun _ _ _ hwf hni => removeAt_notfound hwf hni

/-- Witness: `remove_at(end())` on `[1, 2]` reports failure and returns the
list unchanged. -/
theorem C10_remove_at_foreign_cursor_noop_witness :
    removeAt (mkList [1, 2]) (cend (mkList [1, 2]))
      = .ok ((nd (mkList [1, 2]).heap (mkList [1, 2]).tail).data, false, mkList [1, 2]) :=
  C10_remove_at_foreign_cursor_noop (mkList [1, 2]) [1, 2] (cend (mkList [1, 2]))
    (by decide) (by decide)

end TvjFL
